import Mathlib

/-!
# remarkable_print_server: PDF start detection and the received-file commit

A shallow embedding of `src/main.cc`.

* `std::string` values are lists of characters (`List Char`); the code only
  ever compares bytes with each other, so the element type plays no role.
* `std::string::size_type` is a natural number; the one place where the
  source subtracts (`nextNewLine - chunkBorder.size() + 1`) is computed modulo
  `2 ^ 64`.
* `std::string::find` returns `none` where the library returns `npos`; a real
  index is always smaller than `npos` because no string is that long.
* An exception leaving a function is an explicit result (`Scan.outOfRange`,
  or `none` for the handler and the file operations).
* The file system is a map from path names to contents, and what the
  environment decides (the generated uuid, whether a file can be opened, how
  many metadata bytes reach the disk, the clock) is the record `Env`. Writes
  to the payload stream and `unlink` are taken to succeed, and the payload
  file holds the bytes passed to `file <<`.
* `recv` is the list of the chunks it returns, in order; the end of the list
  is the end of the stream.
-/

namespace PrintServer

/-! ## Strings -/

/-- The value of `std::string::npos` for a 64-bit `size_type`. -/
def npos : Nat := 2 ^ 64 - 1

/-- Subtraction in `size_type` (unsigned, 64 bits). -/
def subSize (a b : Nat) : Nat := (a + (2 ^ 64 - b % 2 ^ 64)) % 2 ^ 64

/-- Addition in `size_type` (unsigned, 64 bits). -/
def addSize (a b : Nat) : Nat := (a + b) % 2 ^ 64

/-- Model of `s.find(c, start)` for a one-character needle: the index of the
first `c` at or after `start`, `none` for `npos`. -/
def find (s : List Char) (c : Char) (start : Nat) : Option Nat :=
  if c ∈ s.drop start then some (start + (s.drop start).indexOf c) else none

/-- Model of `s.substr(pos, n)`; `none` is `std::out_of_range`. -/
def substr (s : List Char) (pos n : Nat) : Option (List Char) :=
  if pos ≤ s.length then some ((s.drop pos).take n) else none

/-- Model of `s.substr(pos)` (up to the end); `none` is `std::out_of_range`. -/
def substrFrom (s : List Char) (pos : Nat) : Option (List Char) :=
  if pos ≤ s.length then some (s.drop pos) else none

/-! ## getPdfStart -/

/-- The token a header line starts with, `"\n%PDF-"`. -/
def marker : List Char := ['\n', '%', 'P', 'D', 'F', '-']

/-- How many characters are kept from the line begin between chunks. -/
def MAX_PREV_BUFFERING : Nat := 1024

/-- What a call of `getPdfStart` does: it returns a value and leaves a value in
`chunkBorder`, or it throws `std::out_of_range`. `fuelOut` is not a behaviour
of the source: it marks an exhausted iteration bound and is shown never to be
produced (`getPdfStart_ne_fuelOut`). -/
inductive Scan where
  | returned (result : Nat) (chunkBorder : List Char)
  | outOfRange
  | fuelOut
deriving DecidableEq, Repr

/-- The `do { ... } while (pos != npos)` loop of `getPdfStart`, one iteration
per unit of fuel, `pos` being the index of the current line begin. The loop
condition holds whenever it is reached, so the `return npos` behind the loop
is dead code. -/
def scanLoop (lineBuf chunkBorder : List Char) : Nat → Nat → Scan
  | 0, _ => .fuelOut
  | fuel + 1, pos =>
    match substr lineBuf pos 6 with
    | none => .outOfRange
    | some lineToken =>
      if lineToken = marker then
        match find lineBuf '\n' (pos + 1) with
        | none =>
          match substr lineBuf 0 MAX_PREV_BUFFERING with
          | none => .outOfRange
          | some saved => .returned npos saved
        | some nextNewLine =>
          .returned (addSize (subSize nextNewLine chunkBorder.length) 1) chunkBorder
      else
        match find lineBuf '\n' (pos + 1) with
        | none =>
          match substr lineBuf pos MAX_PREV_BUFFERING with
          | none => .outOfRange
          | some saved => .returned npos saved
        | some nextPos => scanLoop lineBuf chunkBorder fuel nextPos

/-- Model of `getPdfStart(chunk, chunkBorder)`. When the text holds no line
feed, `pos` is `npos` and the first `substr` throws. -/
def getPdfStart (chunk chunkBorder : List Char) : Scan :=
  let lineBuf := chunkBorder ++ chunk
  match find lineBuf '\n' 0 with
  | none => .outOfRange
  | some pos => scanLoop lineBuf chunkBorder (lineBuf.length + 1) pos

/-! ## The receive loop of handlePdfFromSock -/

/-- PDF parsing state. -/
inductive State where
  | PARSING_HEADER
  | PARSING_BODY
deriving DecidableEq, Repr

/-- The variables of the receive loop. `written` collects the bytes passed to
`file <<`; `scanLog` is a ghost field recording the value returned by every
call of `getPdfStart`, in order. -/
structure Conn where
  state : State
  chunkBorder : List Char
  written : List Char
  scanLog : List Nat
deriving DecidableEq, Repr

/-- The loop variables before the first `recv`. -/
def Conn.initial : Conn :=
  { state := .PARSING_HEADER, chunkBorder := ['\n'], written := [], scanLog := [] }

/-- The loop body for one received chunk (`received > 0`); `none` when an
exception leaves the handler. -/
def onData (c : Conn) (data : List Char) : Option Conn :=
  if c.state = .PARSING_HEADER then
    match getPdfStart data c.chunkBorder with
    | .returned pdfStart border =>
      if pdfStart ≠ npos then
        match substrFrom data pdfStart with
        | none => none
        | some body =>
          some { state := .PARSING_BODY, chunkBorder := [],
                 written := c.written ++ body, scanLog := c.scanLog ++ [pdfStart] }
      else
        some { c with chunkBorder := border, scanLog := c.scanLog ++ [pdfStart] }
    | _ => none
  else
    some { c with written := c.written ++ data }

/-- The `do { ... } while (received > 0)` loop over the results of `recv`; the
end of the list, like an empty chunk, is `received <= 0`. -/
def recvLoop : Conn → List (List Char) → Option Conn
  | c, [] => some c
  | c, data :: rest =>
    if 0 < data.length then
      match onData c data with
      | none => none
      | some c1 => recvLoop c1 rest
    else some c

/-! ## ReceivedFile and the metadata record -/

/-- The file system: path name to content. -/
abbrev FS := List Char → Option (List Char)

/-- Create or replace a file. -/
def FS.store (fs : FS) (path content : List Char) : FS :=
  fun p => if p = path then some content else fs p

/-- Model of `unlink`. -/
def FS.unlink (fs : FS) (path : List Char) : FS :=
  fun p => if p = path then none else fs p

/-- What the environment decides during one connection. -/
structure Env where
  /-- The text returned by `uuid()`. -/
  uuid : List Char
  /-- Whether the `.pdf` file can be opened for writing. -/
  pdfOpens : Bool
  /-- Whether the `.metadata` file can be opened for writing. -/
  metaOpens : Bool
  /-- How many bytes of `metadataFile << metadata` reach the file. -/
  metaStored : Nat
  /-- The value of `::time(nullptr)`. -/
  now : Int

/-- The members of `ReceivedFile`; `isOpen` is `file.is_open()`. -/
structure ReceivedFile where
  dataDir : List Char
  fileUuid : List Char
  isOpen : Bool
deriving DecidableEq, Repr

/-- The path `dataDir + fileUuid + ".pdf"`. -/
def ReceivedFile.pdfPath (f : ReceivedFile) : List Char :=
  f.dataDir ++ f.fileUuid ++ ".pdf".toList

/-- The path `dataDir + fileUuid + ".metadata"`. -/
def ReceivedFile.metadataPath (f : ReceivedFile) : List Char :=
  f.dataDir ++ f.fileUuid ++ ".metadata".toList

/-- The constructor: fix the directory name, open the payload file; `none`
when it throws. (For an empty `dir` the source calls `back()` on an empty
string; the model appends the separator.) -/
def ReceivedFile.create (env : Env) (dir : List Char) (fs : FS) :
    Option (ReceivedFile × FS) :=
  let dataDir := if dir.getLast? ≠ some '/' then dir ++ ['/'] else dir
  let f : ReceivedFile := { dataDir := dataDir, fileUuid := env.uuid, isOpen := true }
  if env.pdfOpens then some (f, fs.store f.pdfPath []) else none

/-- The destructor: an open payload file is closed and unlinked. -/
def ReceivedFile.release (f : ReceivedFile) (fs : FS) : FS :=
  if f.isOpen then fs.unlink f.pdfPath else fs

/-- Value of a signed 64-bit integer after arithmetic wrapped it (where the
language leaves the overflow undefined, the model wraps). -/
def wrapInt64 (x : Int) : Int := (x + 2 ^ 63) % 2 ^ 64 - 2 ^ 63

/-- The expression `::time(nullptr) * 1000`. -/
def timestampMs (now : Int) : Int := wrapInt64 (now * 1000)

/-- Model of `std::to_string` on an integer. -/
def toStdString (x : Int) : List Char := (toString x).toList

/-- The initial value of `metadata` in `writeMetaData`. -/
def metadataTemplate : List Char :=
  ("\x7b\n" ++
   "    \"deleted\": false,\n" ++
   "    \"lastModified\": \"__MODIFIED_TIMESTAMP_MS__\",\n" ++
   "    \"metadatamodified\": true,\n" ++
   "    \"modified\": true,\n" ++
   "    \"parent\": \"\",\n" ++
   "    \"pinned\": false,\n" ++
   "    \"synced\": false,\n" ++
   "    \"type\": \"DocumentType\",\n" ++
   "    \"version\": 0,\n" ++
   "    \"visibleName\": \"PDF import\"\n" ++
   "\x7d").toList

/-- The value of `tsPattern`. -/
def tsPattern : List Char := "__MODIFIED_TIMESTAMP_MS__".toList

/-- Model of `s.find(pattern)`: the index of the first occurrence, `none` for
`npos`. -/
def findSub : List Char → List Char → Option Nat
  | [], pattern => if pattern = [] then some 0 else none
  | x :: xs, pattern =>
    if pattern <+: x :: xs then some 0 else (findSub xs pattern).map (· + 1)

/-- Model of `s.replace(pos, len, str)`; `none` is `std::out_of_range`. -/
def replaceAt (s : List Char) (pos len : Nat) (str : List Char) : Option (List Char) :=
  if pos ≤ s.length then some (s.take pos ++ str ++ s.drop (pos + len)) else none

/-- The text `writeMetaData` sends to the metadata file when the clock reads
`now`; `none` when `replace` throws. -/
def metadataText (now : Int) : Option (List Char) :=
  match findSub metadataTemplate tsPattern with
  | none => none
  | some pos => replaceAt metadataTemplate pos tsPattern.length (toStdString (timestampMs now))

/-- Model of `writeMetaData`; `none` when it throws. The source tests the
stream after the open only, so a write that stores less than the text goes
unnoticed. -/
def ReceivedFile.writeMetaData (f : ReceivedFile) (env : Env) (fs : FS) : Option FS :=
  match metadataText env.now with
  | none => none
  | some metadata =>
    if env.metaOpens then some (fs.store f.metadataPath (metadata.take env.metaStored))
    else none

/-- Model of `close()`: the metadata first, then the payload stream. -/
def ReceivedFile.close (f : ReceivedFile) (env : Env) (fs : FS) :
    Option (ReceivedFile × FS) :=
  match f.writeMetaData env fs with
  | none => none
  | some fs1 => some ({ f with isOpen := false }, fs1)

/-- How a connection ends: the two log lines of the handler, or an exception
that reaches the `catch` in `main`. -/
inductive Outcome where
  | imported
  | discarded
  | error
deriving DecidableEq, Repr

/-- Model of `handlePdfFromSock`: the chunks are the results of `recv`, the
payload file holds the bytes passed to `file <<`, and the destructor of
`file` runs on every way out. -/
def handlePdfFromSock (env : Env) (chunks : List (List Char)) (dir : List Char)
    (fs : FS) : Outcome × FS :=
  match ReceivedFile.create env dir fs with
  | none => (.error, fs)
  | some (file, fs1) =>
    match recvLoop Conn.initial chunks with
    | none => (.error, file.release fs1)
    | some conn =>
      let fs2 := fs1.store file.pdfPath conn.written
      if conn.state = .PARSING_BODY then
        match file.close env fs2 with
        | none => (.error, file.release fs2)
        | some (closed, fs3) => (.imported, closed.release fs3)
      else (.discarded, file.release fs2)

/-! ## Reference notions used in the statements -/

/-- Index of the first occurrence of `marker` in a text. -/
def firstMarker : List Char → Option Nat
  | [] => none
  | x :: xs => if marker <+: x :: xs then some 0 else (firstMarker xs).map (· + 1)

/-- The part of a text from its last line feed on (the whole text when the
tail holds none). -/
def lastLine : List Char → List Char
  | [] => []
  | x :: xs => if '\n' ∈ xs then lastLine xs else x :: xs

/-- A text holds a header line that is terminated: an occurrence of `marker`
with a line feed somewhere after it. -/
def HasHeaderLine (text : List Char) : Prop :=
  ∃ pre mid post, text = pre ++ marker ++ mid ++ '\n' :: post

/-- What the loop of `getPdfStart` computes from the line begin at `pos`, told
from the text `tail` that starts there. -/
def scanSpec (lineBuf chunkBorder : List Char) (pos : Nat) (tail : List Char) : Scan :=
  match firstMarker tail with
  | some k =>
    if '\n' ∈ tail.drop (k + 1) then
      .returned
        (addSize (subSize (pos + k + 1 + (tail.drop (k + 1)).indexOf '\n')
          chunkBorder.length) 1)
        chunkBorder
    else .returned npos (lineBuf.take MAX_PREV_BUFFERING)
  | none => .returned npos ((lastLine tail).take MAX_PREV_BUFFERING)

/-- The carry-buffer invariant: the buffer begins with a line feed and holds
at most `MAX_PREV_BUFFERING` bytes. -/
def CarryInv (border : List Char) : Prop :=
  border.head? = some '\n' ∧ border.length ≤ MAX_PREV_BUFFERING

/-- The carry buffers that arise from the sentinel `"\n"` through calls of
`getPdfStart` that all returned `npos`. -/
inductive Reachable : List Char → Prop
  | initial : Reachable ['\n']
  | step (border chunk next : List Char) :
      Reachable border → getPdfStart chunk border = .returned npos next → Reachable next

/-- What holds of the loop variables throughout a connection: while the header
is searched the carry buffer is a reachable one and nothing has been written;
afterwards the buffer is empty. -/
def ConnInv (c : Conn) : Prop :=
  (c.state = .PARSING_HEADER → Reachable c.chunkBorder ∧ c.written = [])
  ∧ (c.state = .PARSING_BODY → c.chunkBorder = [])

/-- What the handler makes of a whole stream, told from the text
`"\n" + stream`: the final state and the payload, which is what follows the
line feed that ends the first header line. -/
def wholeStream (text : List Char) : State × List Char :=
  match firstMarker text with
  | some k =>
    if '\n' ∈ text.drop (k + 1) then
      (.PARSING_BODY, text.drop (k + 1 + (text.drop (k + 1)).indexOf '\n' + 1))
    else (.PARSING_HEADER, [])
  | none => (.PARSING_HEADER, [])

/-- A print job of 1034 bytes, as three results of `recv`: a line of 1020
bytes, the begin of the header line, its end with the body. -/
def longJob : List (List Char) :=
  [List.replicate 1020 'a', "\n%PDF-1".toList, ".4\nBODY".toList]

/-- The bytes of `longJob` as two results of `recv`, the first one filling
the 1024-byte buffer. -/
def longJobFilled : List (List Char) :=
  [List.replicate 1020 'a' ++ "\n%PD".toList, "F-1.4\nBODY".toList]

/-- An environment in which everything succeeds. -/
def goodEnv : Env :=
  { uuid := "id".toList, pdfOpens := true, metaOpens := true, metaStored := 1000, now := 5 }

/-- An environment in which the metadata file opens and the write to it
stores nothing (a full disk). -/
def fullDiskEnv : Env :=
  { uuid := "id".toList, pdfOpens := true, metaOpens := true, metaStored := 0, now := 5 }

/-- An environment in which the metadata file cannot be opened. -/
def noMetaEnv : Env :=
  { uuid := "id".toList, pdfOpens := true, metaOpens := false, metaStored := 1000, now := 5 }

/-- The empty directory. -/
def emptyFS : FS := fun _ => none

/-! ## Lemmas on the string operations -/

/-- A member splits the list at its first occurrence. -/
theorem split_at_first {c : Char} {r : List Char} (h : c ∈ r) :
    ∃ line rest, r = line ++ c :: rest ∧ c ∉ line ∧ r.indexOf c = line.length := by
  induction r with
  | nil => simp at h
  | cons x xs ih =>
    by_cases hx : x = c
    · subst hx
      exact ⟨[], xs, rfl, by simp, by simp⟩
    · have hxs : c ∈ xs := by
        rcases List.mem_cons.mp h with h1 | h1
        · exact absurd h1.symm hx
        · exact h1
      obtain ⟨line, rest, h1, h2, h3⟩ := ih hxs
      refine ⟨x :: line, rest, by simp [h1], ?_, ?_⟩
      · simp only [List.mem_cons, not_or]
        exact ⟨fun hc => hx hc.symm, h2⟩
      · rw [List.indexOf_cons_ne _ hx, h3]
        simp

/-- A member splits the list at its last occurrence. -/
theorem split_at_last {c : Char} {r : List Char} (h : c ∈ r) :
    ∃ front last, r = front ++ c :: last ∧ c ∉ last := by
  induction r with
  | nil => simp at h
  | cons x xs ih =>
    by_cases hxs : c ∈ xs
    · obtain ⟨front, last, h1, h2⟩ := ih hxs
      exact ⟨x :: front, last, by simp [h1], h2⟩
    · rcases List.mem_cons.mp h with h1 | h1
      · subst h1
        exact ⟨[], xs, rfl, hxs⟩
      · exact absurd h1 hxs

theorem marker_length : marker.length = 6 := rfl

/-- The token test of the loop is a test for `marker` being at the front. -/
theorem take_six_eq_marker (l : List Char) : l.take 6 = marker ↔ marker <+: l := by
  rw [List.prefix_iff_eq_take, marker_length]
  exact eq_comm

/-- A marker at the front of a text begins with the line feed. -/
theorem head_of_marker_front {x : Char} {xs : List Char} (h : marker <+: x :: xs) :
    x = '\n' := by
  simp only [marker, List.cons_prefix_cons] at h
  exact h.1.symm

/-- A marker holds one line feed only, so it cannot run over the start of a
later line. -/
theorem marker_front_of_append (front rest : List Char) (hne : front ≠ [])
    (h : marker <+: front ++ '\n' :: rest) : marker <+: front := by
  rcases front with _ | ⟨a1, _ | ⟨a2, _ | ⟨a3, _ | ⟨a4, _ | ⟨a5, _ | ⟨a6, t⟩⟩⟩⟩⟩⟩
  · exact absurd rfl hne
  all_goals simp [marker, List.cons_prefix_cons] at h ⊢
  all_goals exact h

/-! ## Lemmas on `firstMarker` and `lastLine` -/

theorem firstMarker_cons (x : Char) (xs : List Char) :
    firstMarker (x :: xs)
      = if marker <+: x :: xs then some 0 else (firstMarker xs).map (· + 1) := rfl

theorem firstMarker_of_front {l : List Char} (h : marker <+: l) : firstMarker l = some 0 := by
  cases l with
  | nil => simp [marker] at h
  | cons x xs => simp [firstMarker_cons, h]

theorem firstMarker_none_iff (l : List Char) : firstMarker l = none ↔ ¬ marker <:+: l := by
  induction l with
  | nil => simp [firstMarker, marker]
  | cons x xs ih =>
    rw [firstMarker_cons, List.infix_cons_iff]
    by_cases h : marker <+: x :: xs
    · simp [h]
    · simp [h, ih]

/-- The header token does occur where `firstMarker` points. -/
theorem firstMarker_split {l : List Char} {k : Nat} (h : firstMarker l = some k) :
    ∃ suf, l = l.take k ++ marker ++ suf := by
  induction l generalizing k with
  | nil => simp [firstMarker] at h
  | cons x xs ih =>
    rw [firstMarker_cons] at h
    by_cases hp : marker <+: x :: xs
    · simp only [hp, if_true, Option.some.injEq] at h
      subst h
      obtain ⟨suf, hs⟩ := hp
      exact ⟨suf, by simp [hs]⟩
    · cases hj : firstMarker xs with
      | none => simp [hp, hj] at h
      | some j =>
        simp only [hp, if_false, hj, Option.map_some', Option.some.injEq] at h
        subst h
        obtain ⟨suf, hs⟩ := ih hj
        refine ⟨suf, ?_⟩
        simp only [List.take_succ_cons, List.cons_append, List.cons.injEq, true_and]
        simpa using hs

/-- No occurrence begins before the one `firstMarker` points to. -/
theorem firstMarker_le (pre suf : List Char) :
    ∃ k, firstMarker (pre ++ marker ++ suf) = some k ∧ k ≤ pre.length := by
  induction pre with
  | nil => exact ⟨0, firstMarker_of_front ⟨suf, by simp⟩, Nat.le_refl _⟩
  | cons x xs ih =>
    obtain ⟨k, hk, hle⟩ := ih
    simp only [List.append_assoc] at hk
    simp only [List.cons_append, List.append_assoc, firstMarker_cons]
    by_cases hp : marker <+: x :: (xs ++ (marker ++ suf))
    · exact ⟨0, by simp [hp], Nat.zero_le _⟩
    · exact ⟨k + 1, by simp [hp, hk], by simpa using hle⟩

theorem firstMarker_length {l : List Char} {k : Nat} (h : firstMarker l = some k) :
    k + 6 ≤ l.length := by
  obtain ⟨suf, hs⟩ := firstMarker_split h
  have hlen := congrArg List.length hs
  have hk : k ≤ l.length := by
    by_contra hc
    have : l.take k = l := List.take_of_length_le (by omega)
    rw [this] at hlen
    simp [marker] at hlen
  simp only [List.length_append, List.length_take, marker_length] at hlen
  omega

theorem firstMarker_of_not_mem {l : List Char} (h : '\n' ∉ l) : firstMarker l = none := by
  rw [firstMarker_none_iff]
  rintro ⟨s, t, hst⟩
  apply h
  rw [← hst]
  simp [marker]

/-- Characters other than the line feed in front of a text only shift the
first occurrence. -/
theorem firstMarker_append_of_not_mem {line : List Char} (rest : List Char)
    (h : '\n' ∉ line) :
    firstMarker (line ++ rest) = (firstMarker rest).map (· + line.length) := by
  induction line with
  | nil => simp
  | cons x xs ih =>
    have hx : x ≠ '\n' := fun hc => h (by simp [hc])
    have hxs : '\n' ∉ xs := fun hc => h (by simp [hc])
    have hp : ¬ marker <+: x :: (xs ++ rest) := fun hc => hx (head_of_marker_front hc)
    simp only [List.cons_append, firstMarker_cons, hp, if_false, ih hxs, Option.map_map]
    congr 1

/-- A text without the token, put in front of a line begin, only shifts the
first occurrence. -/
theorem firstMarker_shift {pre : List Char} (rest : List Char) (h : ¬ marker <:+: pre) :
    firstMarker (pre ++ '\n' :: rest)
      = (firstMarker ('\n' :: rest)).map (· + pre.length) := by
  induction pre with
  | nil => simp
  | cons x xs ih =>
    have hxs : ¬ marker <:+: xs := fun hc => h (List.infix_cons hc)
    have hp : ¬ marker <+: x :: (xs ++ '\n' :: rest) := by
      intro hc
      have := marker_front_of_append (x :: xs) rest (by simp) (by simpa using hc)
      exact h this.isInfix
    simp only [List.cons_append, firstMarker_cons (x := x), hp, if_false, ih hxs,
      Option.map_map]
    congr 1

/-- More text at the end does not move the first occurrence. -/
theorem firstMarker_append_stable {l : List Char} {k : Nat} (h : firstMarker l = some k)
    (more : List Char) : firstMarker (l ++ more) = some k := by
  induction l generalizing k with
  | nil => simp [firstMarker] at h
  | cons x xs ih =>
    rw [firstMarker_cons] at h
    simp only [List.cons_append, firstMarker_cons]
    by_cases hp : marker <+: x :: xs
    · have hp2 : marker <+: x :: (xs ++ more) := by
        simpa using hp.trans (List.prefix_append (x :: xs) more)
      simp only [hp, if_true] at h
      simp [hp2, h]
    · cases hj : firstMarker xs with
      | none => simp [hp, hj] at h
      | some j =>
        simp only [hp, if_false, hj, Option.map_some', Option.some.injEq] at h
        subst h
        have hlen := firstMarker_length hj
        have hp2 : ¬ marker <+: x :: (xs ++ more) := by
          intro hc
          apply hp
          have h1 : marker <+: (x :: xs) ++ more := by simpa using hc
          exact List.prefix_of_prefix_length_le h1 (List.prefix_append _ _)
            (by simp [marker_length]; omega)
        simp [hp2, ih hj]

theorem lastLine_cons (x : Char) (xs : List Char) :
    lastLine (x :: xs) = if '\n' ∈ xs then lastLine xs else x :: xs := rfl

theorem lastLine_of_not_mem (x : Char) {xs : List Char} (h : '\n' ∉ xs) :
    lastLine (x :: xs) = x :: xs := by
  simp [lastLine_cons, h]

/-- Only the text from the last line feed on counts. -/
theorem lastLine_append (front rest : List Char) :
    lastLine (front ++ '\n' :: rest) = lastLine ('\n' :: rest) := by
  induction front with
  | nil => rfl
  | cons x xs ih =>
    simp only [List.cons_append, lastLine_cons (x := x)]
    simp [ih]

theorem lastLine_suffix (l : List Char) : lastLine l <:+ l := by
  induction l with
  | nil => exact List.suffix_refl _
  | cons x xs ih =>
    rw [lastLine_cons]
    by_cases h : '\n' ∈ xs
    · simpa [h] using ih.trans (List.suffix_cons x xs)
    · simp [h]

/-- The last line of a text that begins with a line feed is that line feed
and characters other than it. -/
theorem lastLine_shape (rest : List Char) :
    ∃ front last, '\n' :: rest = front ++ '\n' :: last ∧ '\n' ∉ last
      ∧ lastLine ('\n' :: rest) = '\n' :: last := by
  obtain ⟨front, last, h1, h2⟩ := split_at_last (c := '\n') (r := '\n' :: rest) (by simp)
  refine ⟨front, last, h1, h2, ?_⟩
  rw [h1, lastLine_append, lastLine_of_not_mem _ h2]

/-! ## The loop of `getPdfStart` -/

theorem drop_succ_of_drop_eq_cons {l : List Char} {pos : Nat} {x : Char} {r : List Char}
    (h : l.drop pos = x :: r) : l.drop (pos + 1) = r := by
  have : l.drop (pos + 1) = (l.drop pos).drop 1 := by
    rw [List.drop_drop, Nat.add_comm]
  rw [this, h]
  rfl

theorem drop_add_of_drop_eq_append {l : List Char} (pos : Nat) (front : List Char)
    {rest : List Char}
    (h : l.drop pos = front ++ rest) : l.drop (pos + front.length) = rest := by
  have : l.drop (pos + front.length) = (l.drop pos).drop front.length := by
    rw [List.drop_drop, Nat.add_comm]
  rw [this, h, List.drop_left]

theorem le_length_of_drop_eq_cons {l : List Char} {pos : Nat} {x : Char} {r : List Char}
    (h : l.drop pos = x :: r) : pos + 1 + r.length = l.length := by
  have := congrArg List.length h
  simp only [List.length_drop, List.length_cons] at this
  omega

/-- The loop, started at a line begin with enough fuel, computes `scanSpec`. -/
theorem scanLoop_eq_scanSpec (lineBuf chunkBorder : List Char) :
    ∀ (fuel pos : Nat) (r : List Char), lineBuf.drop pos = '\n' :: r → r.length < fuel →
      scanLoop lineBuf chunkBorder fuel pos
        = scanSpec lineBuf chunkBorder pos ('\n' :: r) := by
  intro fuel
  induction fuel with
  | zero => intro pos r _ h; omega
  | succ f ih =>
    intro pos r hdrop hfuel
    have hlen := le_length_of_drop_eq_cons hdrop
    have hpos : pos ≤ lineBuf.length := by omega
    have hnext : lineBuf.drop (pos + 1) = r := drop_succ_of_drop_eq_cons hdrop
    simp only [scanLoop, substr, hpos, if_true, hdrop, take_six_eq_marker]
    by_cases hfront : marker <+: '\n' :: r
    · -- the line at `pos` is the header line
      simp only [hfront, if_true, scanSpec, firstMarker_of_front hfront]
      by_cases hnl : '\n' ∈ r
      · simp [find, hnext, hnl]
      · simp [find, hnext, hnl]
    · simp only [hfront, if_false]
      by_cases hnl : '\n' ∈ r
      · obtain ⟨line, r2, hr, hline, hidx⟩ := split_at_first hnl
        have hfind : find lineBuf '\n' (pos + 1) = some (pos + 1 + line.length) := by
          simp [find, hnext, hnl, hidx]
        have hdrop2 : lineBuf.drop (pos + 1 + line.length) = '\n' :: r2 := by
          apply drop_add_of_drop_eq_append (pos + 1) line
          rw [hnext, hr]
        have hfuel2 : r2.length < f := by
          have := congrArg List.length hr
          simp only [List.length_append, List.length_cons] at this
          omega
        simp only [hfind]
        rw [ih _ _ hdrop2 hfuel2]
        -- both sides are `scanSpec`; compare the first occurrence
        have hfm : firstMarker ('\n' :: r)
            = (firstMarker ('\n' :: r2)).map (· + (line.length + 1)) := by
          rw [firstMarker_cons, if_neg hfront, hr, firstMarker_append_of_not_mem _ hline,
            Option.map_map]
          congr 1
        have hll : lastLine ('\n' :: r) = lastLine ('\n' :: r2) := by
          rw [hr]
          exact lastLine_append ('\n' :: line) r2
        simp only [scanSpec, hfm, hll]
        cases hk : firstMarker ('\n' :: r2) with
        | none => simp
        | some k2 =>
          have hd : ('\n' :: r).drop (k2 + (line.length + 1) + 1) = ('\n' :: r2).drop (k2 + 1) := by
            rw [hr]
            have : '\n' :: (line ++ '\n' :: r2) = ('\n' :: line) ++ ('\n' :: r2) := rfl
            rw [this, show k2 + (line.length + 1) + 1 = ('\n' :: line).length + (k2 + 1) by
              simp; omega]
            exact List.drop_append _
          simp only [Option.map_some', hd]
          have he : pos + (k2 + (line.length + 1)) + 1 = pos + 1 + line.length + k2 + 1 := by
            omega
          rw [he]
      · have hfm : firstMarker ('\n' :: r) = none := by
          rw [firstMarker_cons]
          simp [hfront, firstMarker_of_not_mem hnl]
        simp [find, hnext, hnl, scanSpec, hfm, lastLine_of_not_mem _ hnl]

/-- A call of `getPdfStart` whose `chunkBorder` begins with a line feed
computes `scanSpec` on the joined text. -/
theorem getPdfStart_eq_scanSpec (chunk b : List Char) :
    getPdfStart chunk ('\n' :: b)
      = scanSpec ('\n' :: b ++ chunk) ('\n' :: b) 0 ('\n' :: b ++ chunk) := by
  have hfind : find ('\n' :: b ++ chunk) '\n' 0 = some 0 := by simp [find]
  simp only [getPdfStart, hfind]
  exact scanLoop_eq_scanSpec _ _ _ 0 (b ++ chunk) rfl (by simp; omega)

/-! ## Header lines -/

/-- Unsigned arithmetic gives the plain difference when nothing wraps. -/
theorem addSize_subSize {a b : Nat} (hba : b ≤ a) (hlt : a - b + 1 < 2 ^ 64) :
    addSize (subSize a b) 1 = a - b + 1 := by
  unfold addSize subSize
  norm_num at hlt ⊢
  omega

theorem mem_drop_of_split {l : List Char} (front post : List Char) {c : Char} {j : Nat}
    (h : l = front ++ c :: post) (hj : j ≤ front.length) : c ∈ l.drop j := by
  rw [h, List.drop_append_of_le_length hj]
  simp

/-- Where `firstMarker` points and a line feed follows, the text has a
terminated header line, and the next line feed is found behind it. -/
theorem header_line_of_first {text : List Char} {k : Nat} (h : firstMarker text = some k)
    (hnl : '\n' ∈ text.drop (k + 1)) :
    ∃ mid post, text = text.take k ++ marker ++ mid ++ '\n' :: post ∧ '\n' ∉ mid
      ∧ (text.drop (k + 1)).indexOf '\n' = 5 + mid.length
      ∧ text.drop (k + 1 + (5 + mid.length) + 1) = post := by
  obtain ⟨suf, hs⟩ := firstMarker_split h
  have hk : k ≤ text.length := by have := firstMarker_length h; omega
  have htk : (text.take k).length = k := by simp [hk]
  have hd : text.drop (k + 1) = ['%', 'P', 'D', 'F', '-'] ++ suf := by
    conv_lhs => rw [hs]
    rw [List.append_assoc]
    have : k + 1 = (text.take k).length + 1 := by rw [htk]
    rw [this, List.drop_append]
    rfl
  rw [hd] at hnl
  have hsuf : '\n' ∈ suf := by
    rcases List.mem_append.mp hnl with h1 | h1
    · simp at h1
    · exact h1
  obtain ⟨mid, post, hmp, hmid, hidx⟩ := split_at_first hsuf
  refine ⟨mid, post, ?_, hmid, ?_, ?_⟩
  · rw [List.append_assoc (text.take k ++ marker), ← hmp]
    exact hs
  · rw [hd, List.indexOf_append_of_not_mem (by simp), hidx]
    rfl
  · have : k + 1 + (5 + mid.length) + 1 = (k + 1) + (5 + (mid.length + 1)) := by omega
    rw [this, ← List.drop_drop, hd, hmp]
    have h5 : 5 + (mid.length + 1) = (['%', 'P', 'D', 'F', '-'] ++ (mid ++ ['\n'])).length := by
      simp; omega
    have h6 : ['%', 'P', 'D', 'F', '-'] ++ (mid ++ '\n' :: post)
        = (['%', 'P', 'D', 'F', '-'] ++ (mid ++ ['\n'])) ++ post := by simp
    rw [h5, h6, List.drop_left]

/-- A terminated header line makes `firstMarker` point at or before it, with a
line feed following. -/
theorem first_of_header_line {text pre mid post : List Char}
    (h : text = pre ++ marker ++ mid ++ '\n' :: post) :
    ∃ k, firstMarker text = some k ∧ k ≤ pre.length ∧ '\n' ∈ text.drop (k + 1) := by
  obtain ⟨k, hk, hle⟩ := firstMarker_le pre (mid ++ '\n' :: post)
  have h2 : text = pre ++ marker ++ (mid ++ '\n' :: post) := by rw [h]; simp
  refine ⟨k, by rw [h2]; exact hk, hle, ?_⟩
  apply mem_drop_of_split (pre ++ marker ++ mid) post h
  simp [marker_length]
  omega

theorem hasHeaderLine_iff (text : List Char) :
    HasHeaderLine text ↔ ∃ k, firstMarker text = some k ∧ '\n' ∈ text.drop (k + 1) := by
  constructor
  · rintro ⟨pre, mid, post, h⟩
    obtain ⟨k, hk, _, hnl⟩ := first_of_header_line h
    exact ⟨k, hk, hnl⟩
  · rintro ⟨k, hk, hnl⟩
    obtain ⟨mid, post, h, _⟩ := header_line_of_first hk hnl
    exact ⟨_, mid, post, h⟩

/-- The split of a text at the first occurrence of a character is unique. -/
theorem split_unique {c : Char} {a a2 p p2 : List Char} (ha : c ∉ a) (ha2 : c ∉ a2)
    (h : a ++ c :: p = a2 ++ c :: p2) : a = a2 ∧ p = p2 := by
  induction a generalizing a2 with
  | nil =>
    cases a2 with
    | nil => simpa using h
    | cons y ys =>
      simp only [List.nil_append, List.cons_append, List.cons.injEq] at h
      exact absurd (by simp [h.1]) ha2
  | cons x xs ih =>
    cases a2 with
    | nil =>
      simp only [List.nil_append, List.cons_append, List.cons.injEq] at h
      exact absurd (by simp [h.1]) ha
    | cons y ys =>
      simp only [List.cons_append, List.cons.injEq] at h
      have hxs : c ∉ xs := fun hc => ha (by simp [hc])
      have hys : c ∉ ys := fun hc => ha2 (by simp [hc])
      obtain ⟨h1, h2⟩ := ih hxs hys h.2
      exact ⟨by rw [h.1, h1], h2⟩

/-- Every occurrence lies at or behind the one `firstMarker` points to. -/
theorem firstMarker_minimal {text : List Char} {k : Nat} (hk : firstMarker text = some k)
    (pre suf : List Char) (h : text = pre ++ marker ++ suf) : k ≤ pre.length := by
  obtain ⟨k2, hk2, hle⟩ := firstMarker_le pre suf
  rw [← h, hk] at hk2
  cases hk2
  exact hle

/-- The first occurrence, given with its surroundings, is where `firstMarker`
points. -/
theorem firstMarker_of_minimal {text pre suf : List Char} (h : text = pre ++ marker ++ suf)
    (hmin : ∀ pre2 suf2, text = pre2 ++ marker ++ suf2 → pre.length ≤ pre2.length) :
    firstMarker text = some pre.length := by
  obtain ⟨k, hk, hle⟩ := firstMarker_le pre suf
  rw [← h] at hk
  obtain ⟨suf2, hs⟩ := firstMarker_split hk
  have := hmin _ _ hs
  have hk2 : (text.take k).length ≤ k := by simp
  have : k = pre.length := by omega
  rw [← this]
  exact hk

/-- The three ways a call of `getPdfStart` ends when `chunkBorder` begins with
a line feed. -/
theorem getPdfStart_cases (chunk b : List Char) :
    (∃ k, firstMarker ('\n' :: b ++ chunk) = some k
        ∧ '\n' ∈ ('\n' :: b ++ chunk).drop (k + 1)
        ∧ getPdfStart chunk ('\n' :: b)
          = .returned (addSize (subSize
              (k + 1 + (('\n' :: b ++ chunk).drop (k + 1)).indexOf '\n')
              ('\n' :: b).length) 1) ('\n' :: b))
    ∨ (∃ k, firstMarker ('\n' :: b ++ chunk) = some k
        ∧ '\n' ∉ ('\n' :: b ++ chunk).drop (k + 1)
        ∧ getPdfStart chunk ('\n' :: b)
          = .returned npos (('\n' :: b ++ chunk).take MAX_PREV_BUFFERING))
    ∨ (firstMarker ('\n' :: b ++ chunk) = none
        ∧ getPdfStart chunk ('\n' :: b)
          = .returned npos ((lastLine ('\n' :: b ++ chunk)).take MAX_PREV_BUFFERING)) := by
  rw [getPdfStart_eq_scanSpec]
  unfold scanSpec
  cases hk : firstMarker ('\n' :: b ++ chunk) with
  | none => right; right; simp
  | some k =>
    by_cases hnl : '\n' ∈ ('\n' :: b ++ chunk).drop (k + 1)
    · left
      refine ⟨k, rfl, hnl, ?_⟩
      simp only [hnl, if_true, Nat.zero_add]
    · right; left
      exact ⟨k, rfl, hnl, by simp only [hnl, if_false]⟩

/-- C1. Single-chunk detection: with the sentinel as carry, `getPdfStart`
returns a position exactly when the text `"\n" + chunk` holds an occurrence of
`"\n%PDF-"` with a later line feed, and the position is then the index in
`chunk` right after the first line feed that follows the first occurrence, so
that `chunk.substr(result)` is what comes after the header line. -/
theorem getPdfStart_single_chunk (chunk : List Char) (hlen : chunk.length < npos) :
    ((∃ p b, getPdfStart chunk ['\n'] = .returned p b ∧ p ≠ npos)
        ↔ HasHeaderLine ('\n' :: chunk))
    ∧ (∀ pre mid post, '\n' :: chunk = pre ++ marker ++ mid ++ '\n' :: post →
        (∀ pre2 suf2, '\n' :: chunk = pre2 ++ marker ++ suf2 → pre.length ≤ pre2.length) →
        '\n' ∉ mid →
        getPdfStart chunk ['\n'] = .returned (pre.length + 6 + mid.length) ['\n']
          ∧ chunk.drop (pre.length + 6 + mid.length) = post) := by
  have hcases := getPdfStart_cases chunk []
  simp only [List.nil_append, List.cons_append, List.length_singleton] at hcases
  have hnpos : npos = 18446744073709551615 := by norm_num [npos]
  -- the value returned in the found case
  have hval : ∀ k, firstMarker ('\n' :: chunk) = some k →
      '\n' ∈ ('\n' :: chunk).drop (k + 1) →
      addSize (subSize (k + 1 + (('\n' :: chunk).drop (k + 1)).indexOf '\n') 1) 1
        = k + 1 + (('\n' :: chunk).drop (k + 1)).indexOf '\n'
      ∧ k + 1 + (('\n' :: chunk).drop (k + 1)).indexOf '\n' ≤ chunk.length := by
    intro k _ hnl
    have hidx := List.indexOf_lt_length.mpr hnl
    rw [List.length_drop, List.length_cons] at hidx
    have hle : k + 1 + (('\n' :: chunk).drop (k + 1)).indexOf '\n' ≤ chunk.length := by omega
    refine ⟨?_, hle⟩
    have hpow : (2 : Nat) ^ 64 = 18446744073709551616 := by norm_num
    rw [hnpos] at hlen
    rw [addSize_subSize (by omega) (by omega)]
    omega
  constructor
  · constructor
    · rintro ⟨p, b, hret, hp⟩
      rw [hasHeaderLine_iff]
      rcases hcases with ⟨k, hk, hnl, _⟩ | ⟨k, _, _, h2⟩ | ⟨_, h2⟩
      · exact ⟨k, hk, hnl⟩
      · rw [h2] at hret
        simp only [Scan.returned.injEq] at hret
        exact absurd hret.1.symm hp
      · rw [h2] at hret
        simp only [Scan.returned.injEq] at hret
        exact absurd hret.1.symm hp
    · intro hh
      obtain ⟨k, hk, hnl⟩ := (hasHeaderLine_iff _).mp hh
      rcases hcases with ⟨k2, hk2, _, h2⟩ | ⟨k2, hk2, hno, _⟩ | ⟨hnone, _⟩
      · rw [hk] at hk2
        cases hk2
        obtain ⟨hv, hle⟩ := hval k hk hnl
        refine ⟨_, _, h2, ?_⟩
        rw [hv]
        omega
      · rw [hk] at hk2
        cases hk2
        exact absurd hnl hno
      · rw [hk] at hnone
        cases hnone
  · intro pre mid post hsplit hmin hmid
    have hsplit2 : '\n' :: chunk = pre ++ marker ++ (mid ++ '\n' :: post) := by
      rw [hsplit]; simp
    have hk := firstMarker_of_minimal hsplit2 hmin
    have hnl : '\n' ∈ ('\n' :: chunk).drop (pre.length + 1) := by
      apply mem_drop_of_split (pre ++ marker ++ mid) post hsplit
      simp [marker_length]
      omega
    obtain ⟨mid2, post2, h1, hmid2, hidx, hdrop⟩ := header_line_of_first hk hnl
    -- the two decompositions agree
    have htake : ('\n' :: chunk).take pre.length = pre := by
      conv_lhs => rw [hsplit2]
      simp
    rw [htake] at h1
    have heq : mid ++ '\n' :: post = mid2 ++ '\n' :: post2 := by
      have h3 : pre ++ marker ++ (mid ++ '\n' :: post) = pre ++ marker ++ (mid2 ++ '\n' :: post2) := by
        rw [← hsplit2, h1]; simp
      exact List.append_cancel_left h3
    have hmm : mid = mid2 ∧ post = post2 := split_unique hmid hmid2 heq
    obtain ⟨rfl, rfl⟩ := hmm
    rcases hcases with ⟨k2, hk2, _, h2⟩ | ⟨k2, hk2, hno, _⟩ | ⟨hnone, _⟩
    · rw [hk] at hk2
      cases hk2
      obtain ⟨hv, hle⟩ := hval _ hk hnl
      rw [h2, hv, hidx]
      have harith : pre.length + 1 + (5 + mid.length) = pre.length + 6 + mid.length := by omega
      rw [harith]
      refine ⟨rfl, ?_⟩
      have : ('\n' :: chunk).drop (pre.length + 1 + (5 + mid.length) + 1)
          = chunk.drop (pre.length + 6 + mid.length) := by
        rw [show pre.length + 1 + (5 + mid.length) + 1 = (pre.length + 6 + mid.length) + 1 by
          omega]
        rfl
      rw [← this]
      exact hdrop
    · rw [hk] at hk2
      cases hk2
      exact absurd hnl hno
    · rw [hk] at hnone
      cases hnone

set_option maxRecDepth 4000 in
/-- C1 at the job of the specification: the body starts at index 19. -/
theorem getPdfStart_single_chunk_witness :
    "JOB START\n%PDF-1.4\nBODYBYTES".toList.length < npos
    ∧ getPdfStart "JOB START\n%PDF-1.4\nBODYBYTES".toList ['\n'] = .returned 19 ['\n']
    ∧ "JOB START\n%PDF-1.4\nBODYBYTES".toList.drop 19 = "BODYBYTES".toList := by
  have h := (getPdfStart_single_chunk "JOB START\n%PDF-1.4\nBODYBYTES".toList
    (by decide)).2 "\nJOB START".toList "1.4".toList "BODYBYTES".toList (by decide)
    (firstMarker_minimal (k := 10) (by decide))
    (by decide)
  exact ⟨by decide, h.1, h.2⟩

/-! ## The carry buffer -/

theorem hasHeaderLine_of_sub {part text : List Char} (h : HasHeaderLine part)
    (hsub : part <:+: text) : HasHeaderLine text := by
  obtain ⟨pre, mid, post, hp⟩ := h
  obtain ⟨s, t, hst⟩ := hsub
  exact ⟨s ++ pre, mid, post ++ t, by rw [← hst, hp]; simp⟩

theorem marker_sub_of_hasHeaderLine {text : List Char} (h : HasHeaderLine text) :
    marker <:+: text := by
  obtain ⟨pre, mid, post, hp⟩ := h
  exact ⟨pre, mid ++ '\n' :: post, by rw [hp]; simp⟩

theorem not_hasHeaderLine_of_open {text : List Char} {k : Nat}
    (hk : firstMarker text = some k) (hno : '\n' ∉ text.drop (k + 1)) :
    ¬ HasHeaderLine text := by
  intro hh
  obtain ⟨k2, hk2, hnl⟩ := (hasHeaderLine_iff text).mp hh
  rw [hk] at hk2
  cases hk2
  exact hno hnl

theorem not_hasHeaderLine_of_none {text : List Char} (hk : firstMarker text = none) :
    ¬ HasHeaderLine text := by
  intro hh
  exact (firstMarker_none_iff text).mp hk (marker_sub_of_hasHeaderLine hh)

theorem take_lastLine_sub (n : Nat) (text : List Char) : (lastLine text).take n <:+: text := by
  obtain ⟨s, hs⟩ := lastLine_suffix text
  refine ⟨s, (lastLine text).drop n, ?_⟩
  rw [List.append_assoc, List.take_append_drop, hs]

theorem take_sub (n : Nat) (text : List Char) : text.take n <:+: text :=
  ⟨[], text.drop n, by simp⟩

/-- What `getPdfStart` leaves in a carry buffer that begins with a line feed
and holds no terminated header line is again such a buffer, of at most
`MAX_PREV_BUFFERING` bytes when the old one was. -/
theorem getPdfStart_border (chunk b : List Char) :
    ∃ p next, getPdfStart chunk ('\n' :: b) = .returned p next
      ∧ (∃ b2, next = '\n' :: b2)
      ∧ (('\n' :: b).length ≤ MAX_PREV_BUFFERING → next.length ≤ MAX_PREV_BUFFERING)
      ∧ (¬ HasHeaderLine ('\n' :: b) → ¬ HasHeaderLine next) := by
  rcases getPdfStart_cases chunk b with ⟨k, hk, hnl, h⟩ | ⟨k, hk, hno, h⟩ | ⟨hk, h⟩
  · exact ⟨_, _, h, ⟨b, rfl⟩, fun hl => hl, fun hn => hn⟩
  · refine ⟨_, _, h, ⟨(b ++ chunk).take 1023, rfl⟩, fun _ => List.length_take_le _ _, ?_⟩
    intro _ hh
    exact not_hasHeaderLine_of_open hk hno (hasHeaderLine_of_sub hh (take_sub _ _))
  · obtain ⟨front, last, _, _, hll⟩ := lastLine_shape (b ++ chunk)
    have hll2 : lastLine ('\n' :: b ++ chunk) = '\n' :: last := hll
    refine ⟨_, _, h, ⟨last.take 1023, by rw [hll2]; rfl⟩, fun _ => List.length_take_le _ _, ?_⟩
    intro _ hh
    exact not_hasHeaderLine_of_none hk (hasHeaderLine_of_sub hh (take_lastLine_sub _ _))

theorem not_hasHeaderLine_sentinel : ¬ HasHeaderLine ['\n'] :=
  not_hasHeaderLine_of_none (by decide)

/-- Every reachable carry buffer begins with a line feed, holds at most
`MAX_PREV_BUFFERING` bytes and no terminated header line. -/
theorem Reachable.inv {border : List Char} (h : Reachable border) :
    (∃ b, border = '\n' :: b) ∧ border.length ≤ MAX_PREV_BUFFERING
      ∧ ¬ HasHeaderLine border := by
  induction h with
  | initial => exact ⟨⟨[], rfl⟩, by decide, not_hasHeaderLine_sentinel⟩
  | step border chunk next _ hret ih =>
    obtain ⟨⟨b, rfl⟩, hlen, hno⟩ := ih
    obtain ⟨p, next2, hret2, hshape, hl, hn⟩ := getPdfStart_border chunk b
    rw [hret2] at hret
    simp only [Scan.returned.injEq] at hret
    obtain ⟨_, rfl⟩ := hret
    exact ⟨hshape, hl hlen, hn hno⟩

/-- A carry buffer without a terminated header line ends before the line feed
that terminates the first header line of the joined text. -/
theorem border_before_line_feed {border chunk : List Char} (hno : ¬ HasHeaderLine border)
    {k : Nat} (hk : firstMarker (border ++ chunk) = some k)
    (hnl : '\n' ∈ (border ++ chunk).drop (k + 1)) :
    border.length ≤ k + 1 + ((border ++ chunk).drop (k + 1)).indexOf '\n' := by
  have hp2 : border <+: border ++ chunk := List.prefix_append _ _
  generalize border ++ chunk = text at hk hnl hp2 ⊢
  obtain ⟨mid, post, hsplit, hmid, hidx, hdrop⟩ := header_line_of_first hk hnl
  have hklen := firstMarker_length hk
  have htk : (text.take k).length = k := by simp; omega
  rw [hidx]
  by_contra hlt
  apply hno
  -- the header line and its line feed would lie inside the carry buffer
  have hp1 : (text.take k ++ marker ++ mid ++ ['\n']) <+: text := by
    refine ⟨post, ?_⟩
    conv_rhs => rw [hsplit]
    simp
  have hlen1 : (text.take k ++ marker ++ mid ++ ['\n']).length ≤ border.length := by
    simp only [List.length_append, htk, marker_length, List.length_singleton]
    omega
  obtain ⟨t, ht⟩ := List.prefix_of_prefix_length_le hp1 hp2 hlen1
  exact ⟨text.take k, mid, t, by rw [← ht]; simp⟩

/-- The reported line feed lies in the chunk when the carry buffer holds no
terminated header line: `nextNewLine - chunkBorder.size() + 1` does not wrap
and is an index into the chunk. -/
theorem found_in_chunk {border chunk : List Char} (hno : ¬ HasHeaderLine border)
    {k : Nat} (hk : firstMarker (border ++ chunk) = some k)
    (hnl : '\n' ∈ (border ++ chunk).drop (k + 1)) :
    ∃ q, q = k + 1 + ((border ++ chunk).drop (k + 1)).indexOf '\n'
      ∧ border.length ≤ q ∧ q - border.length + 1 ≤ chunk.length
      ∧ chunk.drop (q - border.length + 1) = (border ++ chunk).drop (q + 1) := by
  have hq := border_before_line_feed hno hk hnl
  have hidxlt := List.indexOf_lt_length.mpr hnl
  rw [List.length_drop, List.length_append] at hidxlt
  refine ⟨_, rfl, hq, by omega, ?_⟩
  generalize k + 1 + ((border ++ chunk).drop (k + 1)).indexOf '\n' = q at hq ⊢
  have : q + 1 = border.length + (q - border.length + 1) := by omega
  rw [this, List.drop_append]

/-! ## The receive loop -/

theorem connInv_initial : ConnInv Conn.initial :=
  ⟨fun _ => ⟨Reachable.initial, rfl⟩, fun h => State.noConfusion h⟩

/-- The loop body keeps the invariant of the loop variables. -/
theorem onData_inv {c c2 : Conn} (data : List Char) (hinv : ConnInv c)
    (hstep : onData c data = some c2) : ConnInv c2 := by
  unfold onData at hstep
  by_cases hstate : c.state = .PARSING_HEADER
  · obtain ⟨hreach, hw⟩ := hinv.1 hstate
    simp only [hstate, if_true] at hstep
    cases hret : getPdfStart data c.chunkBorder with
    | returned p next =>
      simp only [hret] at hstep
      by_cases hp : p = npos
      · subst hp
        simp only [ne_eq, not_true_eq_false, if_false, Option.some.injEq] at hstep
        subst hstep
        exact ⟨fun _ => ⟨Reachable.step _ _ _ hreach hret, hw⟩, fun h => by
          simp only [hstate] at h
          cases h⟩
      · simp only [ne_eq, hp, not_false_eq_true, if_true] at hstep
        cases hsub : substrFrom data p with
        | none => simp [hsub] at hstep
        | some body =>
          simp only [hsub, Option.some.injEq] at hstep
          subst hstep
          exact ⟨fun h => State.noConfusion h, fun _ => rfl⟩
    | outOfRange => simp [hret] at hstep
    | fuelOut => simp [hret] at hstep
  · have hbody : c.state = .PARSING_BODY := by
      cases hs : c.state with
      | PARSING_HEADER => exact absurd hs hstate
      | PARSING_BODY => rfl
    simp only [hstate, if_false, Option.some.injEq] at hstep
    subst hstep
    exact ⟨fun h => absurd h hstate, fun _ => hinv.2 hbody⟩

/-- The receive loop keeps the invariant of the loop variables. -/
theorem recvLoop_inv (chunks : List (List Char)) {c c2 : Conn} (hinv : ConnInv c)
    (hrun : recvLoop c chunks = some c2) : ConnInv c2 := by
  induction chunks generalizing c with
  | nil =>
    simp only [recvLoop, Option.some.injEq] at hrun
    subst hrun
    exact hinv
  | cons data rest ih =>
    simp only [recvLoop] at hrun
    by_cases hd : 0 < data.length
    · simp only [hd, if_true] at hrun
      cases hstep : onData c data with
      | none => simp [hstep] at hrun
      | some c1 =>
        simp only [hstep] at hrun
        exact ih (onData_inv data hinv hstep) hrun
    · simp only [hd, if_false, Option.some.injEq] at hrun
      subst hrun
      exact hinv

/-- Unsigned arithmetic never gives more than the plain difference. -/
theorem addSize_subSize_le {a b : Nat} (hba : b ≤ a) :
    addSize (subSize a b) 1 ≤ a - b + 1 := by
  unfold addSize subSize
  norm_num
  omega

theorem carryInv_iff (border : List Char) :
    CarryInv border ↔ (∃ b, border = '\n' :: b) ∧ border.length ≤ MAX_PREV_BUFFERING := by
  unfold CarryInv
  constructor
  · rintro ⟨h1, h2⟩
    cases border with
    | nil => simp at h1
    | cons x xs =>
      simp only [List.head?_cons, Option.some.injEq] at h1
      exact ⟨⟨xs, by rw [h1]⟩, h2⟩
  · rintro ⟨⟨b, rfl⟩, h2⟩
    exact ⟨rfl, h2⟩

/-- C7. Carry-buffer invariant: a call of `getPdfStart` on a buffer that begins
with a line feed and holds at most 1024 bytes returns and leaves such a buffer,
whatever the chunk; so the invariant holds of the buffer whenever a connection
is still searching the header, and on the chunk that reports the marker the
handler leaves the buffer empty. -/
theorem carry_buffer_invariant :
    (∀ chunk border : List Char, CarryInv border →
      ∃ p next, getPdfStart chunk border = .returned p next ∧ CarryInv next)
    ∧ (∀ (chunks : List (List Char)) (c : Conn), recvLoop Conn.initial chunks = some c →
        c.state = .PARSING_HEADER → CarryInv c.chunkBorder)
    ∧ (∀ (c c2 : Conn) (data : List Char) (p : Nat) (next : List Char),
        c.state = .PARSING_HEADER → getPdfStart data c.chunkBorder = .returned p next →
        p ≠ npos → onData c data = some c2 →
        c2.state = .PARSING_BODY ∧ c2.chunkBorder = []) := by
  refine ⟨?_, ?_, ?_⟩
  · intro chunk border hinv
    obtain ⟨⟨b, rfl⟩, hlen⟩ := (carryInv_iff border).mp hinv
    obtain ⟨p, next, hret, hshape, hl, _⟩ := getPdfStart_border chunk b
    exact ⟨p, next, hret, (carryInv_iff next).mpr ⟨hshape, hl hlen⟩⟩
  · intro chunks c hrun hstate
    have hinv := recvLoop_inv chunks connInv_initial hrun
    obtain ⟨hshape, hlen, _⟩ := (hinv.1 hstate).1.inv
    exact (carryInv_iff _).mpr ⟨hshape, hlen⟩
  · intro c c2 data p next hstate hret hp hstep
    simp only [onData, hstate, if_true, hret, ne_eq, hp, not_false_eq_true] at hstep
    cases hsub : substrFrom data p with
    | none => simp [hsub] at hstep
    | some body =>
      simp only [hsub, Option.some.injEq] at hstep
      subst hstep
      exact ⟨rfl, rfl⟩

/-- C7 on the split job of the specification: the sentinel is a valid carry
buffer, and so is what the first chunk leaves behind. -/
theorem carry_buffer_invariant_witness :
    CarryInv ['\n']
    ∧ (∃ p next, getPdfStart "JOB START\n%PD".toList ['\n'] = .returned p next
        ∧ CarryInv next) :=
  ⟨⟨rfl, by decide⟩, carry_buffer_invariant.1 "JOB START\n%PD".toList ['\n'] ⟨rfl, by decide⟩⟩

/-- C9. Reported offset is in bounds: for a carry buffer reachable from the
sentinel through calls that returned `npos`, a position `p` returned by
`getPdfStart` comes from a line feed at or behind the end of the buffer, so
`nextNewLine - chunkBorder.size() + 1` does not wrap, `1 <= p <= chunk.size()`
and `chunk.substr(p)` does not throw. -/
theorem reported_offset_in_bounds (border chunk : List Char) (p : Nat) (next : List Char)
    (hreach : Reachable border) (hlen : chunk.length < npos)
    (hret : getPdfStart chunk border = .returned p next) (hp : p ≠ npos) :
    1 ≤ p ∧ p ≤ chunk.length
    ∧ (∃ nextNewLine, border.length ≤ nextNewLine
        ∧ p = addSize (subSize nextNewLine border.length) 1
        ∧ p = nextNewLine - border.length + 1)
    ∧ substrFrom chunk p = some (chunk.drop p) := by
  obtain ⟨⟨b, rfl⟩, _, hno⟩ := hreach.inv
  have hnpos : npos = 18446744073709551615 := by norm_num [npos]
  have hpow : (2 : Nat) ^ 64 = 18446744073709551616 := by norm_num
  rcases getPdfStart_cases chunk b with ⟨k, hk, hnl, h⟩ | ⟨k, _, _, h⟩ | ⟨_, h⟩
  · rw [h] at hret
    simp only [Scan.returned.injEq] at hret
    obtain ⟨q, hq, hle, hin, _⟩ := found_in_chunk hno hk hnl
    rw [← hq] at hret
    have hval : addSize (subSize q ('\n' :: b).length) 1 = q - ('\n' :: b).length + 1 :=
      addSize_subSize hle (by omega)
    have hpv : p = q - ('\n' :: b).length + 1 := by rw [← hret.1, hval]
    refine ⟨by omega, by omega, ⟨q, hle, hret.1.symm, hpv⟩, ?_⟩
    simp only [substrFrom]
    rw [if_pos (by omega)]
  · rw [h] at hret
    simp only [Scan.returned.injEq] at hret
    exact absurd hret.1.symm hp
  · rw [h] at hret
    simp only [Scan.returned.injEq] at hret
    exact absurd hret.1.symm hp

/-- C9 on the split job of the specification: the carry `"\n%PD"` left by the
first chunk is reachable, and the second chunk reports offset 6. -/
theorem reported_offset_in_bounds_witness :
    1 ≤ 6 ∧ 6 ≤ "F-1.4\nBODYBYTES".toList.length
    ∧ (∃ nextNewLine, "\n%PD".toList.length ≤ nextNewLine
        ∧ 6 = addSize (subSize nextNewLine "\n%PD".toList.length) 1
        ∧ 6 = nextNewLine - "\n%PD".toList.length + 1)
    ∧ substrFrom "F-1.4\nBODYBYTES".toList 6 = some ("F-1.4\nBODYBYTES".toList.drop 6) :=
  reported_offset_in_bounds "\n%PD".toList "F-1.4\nBODYBYTES".toList 6 "\n%PD".toList
    (Reachable.step _ "JOB START\n%PD".toList _ Reachable.initial (by decide))
    (by decide) (by decide) (by decide)

/-- The carry buffer `"\n%PDF-\nxx"`, on which the subtraction would wrap, is
not reachable. -/
theorem wrapping_border_unreachable :
    getPdfStart "abc".toList "\n%PDF-\nxx".toList
        = .returned 18446744073709551614 "\n%PDF-\nxx".toList
    ∧ ¬ Reachable "\n%PDF-\nxx".toList := by
  refine ⟨by decide, fun h => h.inv.2.2 ?_⟩
  exact ⟨[], [], "xx".toList, by decide⟩

/-- In `PARSING_BODY` the loop body appends the chunk and changes nothing else. -/
theorem onData_body (c : Conn) (data : List Char) (h : c.state = .PARSING_BODY) :
    onData c data = some { c with written := c.written ++ data } := by
  simp [onData, h]

/-- In `PARSING_BODY` the loop appends every chunk up to the end of the stream. -/
theorem recvLoop_body (chunks : List (List Char)) (c : Conn) (h : c.state = .PARSING_BODY)
    (hne : ∀ d ∈ chunks, d ≠ []) :
    recvLoop c chunks = some { c with written := c.written ++ chunks.flatten } := by
  induction chunks generalizing c with
  | nil => simp [recvLoop]
  | cons data rest ih =>
    have hd : 0 < data.length := List.length_pos.mpr (hne data (by simp))
    simp only [recvLoop, hd, if_true, onData_body c data h]
    rw [ih { c with written := c.written ++ data } h (fun d hdm => hne d (by simp [hdm]))]
    simp

/-- The loop over two runs of non-empty chunks is the loop over the first
followed by the loop over the second. -/
theorem recvLoop_append (before after : List (List Char)) (c : Conn)
    (hne : ∀ d ∈ before, d ≠ []) :
    recvLoop c (before ++ after)
      = match recvLoop c before with
        | none => none
        | some c1 => recvLoop c1 after := by
  induction before generalizing c with
  | nil => simp [recvLoop]
  | cons data rest ih =>
    have hd : 0 < data.length := List.length_pos.mpr (hne data (by simp))
    simp only [List.cons_append, recvLoop, hd, if_true]
    cases hstep : onData c data with
    | none => rfl
    | some c1 => exact ih c1 (fun d hdm => hne d (by simp [hdm]))

/-- While the header is searched, offsets reported on a connection lie in the
chunk, so the loop body does not throw. -/
theorem onData_header_found {c : Conn} {data : List Char} {p : Nat} {next : List Char}
    (hinv : ConnInv c) (hstate : c.state = .PARSING_HEADER)
    (hret : getPdfStart data c.chunkBorder = .returned p next) (hp : p ≠ npos) :
    onData c data
      = some { state := .PARSING_BODY, chunkBorder := [],
               written := data.drop p, scanLog := c.scanLog ++ [p] } := by
  obtain ⟨hreach, hw⟩ := hinv.1 hstate
  obtain ⟨⟨b, hb⟩, _, hno⟩ := hreach.inv
  have hle : p ≤ data.length := by
    rw [hb] at hret hno
    rcases getPdfStart_cases data b with ⟨k, hk, hnl, h⟩ | ⟨k, _, _, h⟩ | ⟨_, h⟩
    · rw [h] at hret
      simp only [Scan.returned.injEq] at hret
      obtain ⟨q, hq, hle, hin, _⟩ := found_in_chunk hno hk hnl
      rw [← hq] at hret
      have := addSize_subSize_le hle
      omega
    · rw [h] at hret
      simp only [Scan.returned.injEq] at hret
      exact absurd hret.1.symm hp
    · rw [h] at hret
      simp only [Scan.returned.injEq] at hret
      exact absurd hret.1.symm hp
  simp [onData, hstate, hret, hp, substrFrom, hle, hw]

/-- C6. Body copy is irreversible and verbatim: in `PARSING_BODY` a chunk is
appended to the payload and nothing else changes (the state stays, the log of
`getPdfStart` calls does not grow), for one chunk and for all that follow, also
when a chunk holds a header line; hence a connection that reports the marker
on chunk `chunk_k` at `offset` has written `chunk_k.substr(offset)` followed by
all later chunks. -/
theorem body_copy_verbatim :
    (∀ (c : Conn) (data : List Char), c.state = .PARSING_BODY →
      onData c data = some { c with written := c.written ++ data })
    ∧ (∀ (c : Conn) (chunks : List (List Char)), c.state = .PARSING_BODY →
        (∀ d ∈ chunks, d ≠ []) →
        recvLoop c chunks = some { c with written := c.written ++ chunks.flatten })
    ∧ (∀ (before after : List (List Char)) (chunk_k : List Char) (c : Conn) (offset : Nat)
        (next : List Char), (∀ d ∈ before ++ chunk_k :: after, d ≠ []) →
        recvLoop Conn.initial before = some c → c.state = .PARSING_HEADER →
        getPdfStart chunk_k c.chunkBorder = .returned offset next → offset ≠ npos →
        recvLoop Conn.initial (before ++ chunk_k :: after)
          = some { state := .PARSING_BODY, chunkBorder := [],
                   written := chunk_k.drop offset ++ after.flatten,
                   scanLog := c.scanLog ++ [offset] }) := by
  refine ⟨onData_body, fun c chunks h hne => recvLoop_body chunks c h hne, ?_⟩
  intro before after chunk_k c offset next hne hrun hstate hret hp
  have hinv := recvLoop_inv before connInv_initial hrun
  have hk : 0 < chunk_k.length := List.length_pos.mpr (hne chunk_k (by simp))
  rw [recvLoop_append before _ _ (fun d hd => hne d (by simp [hd])), hrun]
  simp only [recvLoop, hk, if_true, onData_header_found hinv hstate hret hp]
  rw [recvLoop_body after _ rfl (fun d hd => hne d (by simp [hd]))]

set_option maxRecDepth 4000 in
/-- C6 on a stream whose body holds a second header line: it is copied like
any other byte. -/
theorem body_copy_verbatim_witness :
    recvLoop Conn.initial (["JOB\n%PD".toList] ++ "F-1\nAB".toList :: ["\n%PDF-2\n".toList, "CD".toList])
      = some { state := .PARSING_BODY, chunkBorder := [],
               written := "F-1\nAB".toList.drop 4 ++ ["\n%PDF-2\n".toList, "CD".toList].flatten,
               scanLog := [npos] ++ [4] } :=
  body_copy_verbatim.2.2 ["JOB\n%PD".toList] ["\n%PDF-2\n".toList, "CD".toList]
    "F-1\nAB".toList
    { state := .PARSING_HEADER, chunkBorder := "\n%PD".toList, written := [],
      scanLog := [npos] }
    4 "\n%PD".toList (by decide) (by decide) rfl (by decide) (by decide)

/-! ## Chunking below the retention cap -/

theorem wholeStream_of_no_header {text : List Char} (h : ¬ HasHeaderLine text) :
    wholeStream text = (.PARSING_HEADER, []) := by
  unfold wholeStream
  cases hk : firstMarker text with
  | none => rfl
  | some k =>
    have hno : '\n' ∉ text.drop (k + 1) := fun hnl => h ((hasHeaderLine_iff text).mpr ⟨k, hk, hnl⟩)
    simp [hno]

/-- The first header line of a text, once terminated, stays the first header
line when text is put in front that holds no marker and when more text
follows. -/
theorem wholeStream_of_found (pre text more : List Char) (b : List Char) {k : Nat}
    (htext : text = '\n' :: b) (hpre : ¬ marker <:+: pre)
    (hk : firstMarker text = some k) (hnl : '\n' ∈ text.drop (k + 1)) :
    wholeStream (pre ++ text ++ more)
      = (.PARSING_BODY,
          text.drop (k + 1 + (text.drop (k + 1)).indexOf '\n' + 1) ++ more) := by
  have hklen := firstMarker_length hk
  have hidxlt := List.indexOf_lt_length.mpr hnl
  rw [List.length_drop] at hidxlt
  have hfm : firstMarker (pre ++ text ++ more) = some (k + pre.length) := by
    apply firstMarker_append_stable
    rw [htext, firstMarker_shift b hpre, ← htext, hk]
    rfl
  have hdrop : (pre ++ text ++ more).drop (k + pre.length + 1) = text.drop (k + 1) ++ more := by
    rw [List.append_assoc, show k + pre.length + 1 = pre.length + (k + 1) by omega,
      List.drop_append, List.drop_append_of_le_length (by omega)]
  have hmem : '\n' ∈ text.drop (k + 1) ++ more := List.mem_append_left _ hnl
  unfold wholeStream
  simp only [hfm, hdrop, hmem, if_true, List.indexOf_append_of_mem hnl]
  congr 1
  generalize (text.drop (k + 1)).indexOf '\n' = i at hidxlt ⊢
  rw [List.append_assoc, show k + pre.length + 1 + i + 1 = pre.length + (k + 1 + i + 1) by omega,
    List.drop_append, List.drop_append_of_le_length (by omega)]

/-- The loop body on a chunk that completes the header line. -/
theorem onData_found (c : Conn) (data b : List Char) {k : Nat}
    (hstate : c.state = .PARSING_HEADER) (hw : c.written = [])
    (hb : c.chunkBorder = '\n' :: b) (hno : ¬ HasHeaderLine ('\n' :: b))
    (hlen : data.length < npos)
    (hk : firstMarker ('\n' :: b ++ data) = some k)
    (hnl : '\n' ∈ ('\n' :: b ++ data).drop (k + 1)) :
    ∃ p, onData c data
      = some { state := .PARSING_BODY, chunkBorder := [],
               written := ('\n' :: b ++ data).drop
                 (k + 1 + (('\n' :: b ++ data).drop (k + 1)).indexOf '\n' + 1),
               scanLog := c.scanLog ++ [p] } := by
  have hnpos : npos = 18446744073709551615 := by norm_num [npos]
  have hpow : (2 : Nat) ^ 64 = 18446744073709551616 := by norm_num
  rcases getPdfStart_cases data b with ⟨k2, hk2, _, h⟩ | ⟨k2, hk2, hno2, _⟩ | ⟨hk2, _⟩
  · rw [hk] at hk2
    cases hk2
    obtain ⟨q, hq, hle, hin, hd⟩ := found_in_chunk hno hk hnl
    rw [← hq] at h ⊢
    have hval : addSize (subSize q ('\n' :: b).length) 1 = q - ('\n' :: b).length + 1 :=
      addSize_subSize hle (by omega)
    rw [hval] at h
    refine ⟨q - ('\n' :: b).length + 1, ?_⟩
    have hp : q - ('\n' :: b).length + 1 ≠ npos := by omega
    simp only [onData, hstate, if_true, hb, h, ne_eq, hp, not_false_eq_true, substrFrom, hin,
      hw, List.nil_append, hd]
  · rw [hk] at hk2
    cases hk2
    exact absurd hnl hno2
  · rw [hk] at hk2
    cases hk2

/-- The loop body on a chunk that does not complete a header line. -/
theorem onData_not_found (c : Conn) (data b next : List Char)
    (hstate : c.state = .PARSING_HEADER) (hb : c.chunkBorder = '\n' :: b)
    (hret : getPdfStart data ('\n' :: b) = .returned npos next) :
    onData c data = some { c with chunkBorder := next, scanLog := c.scanLog ++ [npos] } := by
  simp [onData, hstate, hb, hret]

/-- While no text is cut off, the receive loop computes `wholeStream` of all
the text: `pre` is what was dropped in front of the carry buffer. -/
theorem recvLoop_eq_wholeStream (chunks : List (List Char)) :
    ∀ (c : Conn) (pre b : List Char), c.state = .PARSING_HEADER → c.written = [] →
      c.chunkBorder = '\n' :: b → ¬ marker <:+: pre → ¬ HasHeaderLine (pre ++ '\n' :: b) →
      (∀ d ∈ chunks, d ≠ []) →
      ('\n' :: b).length + chunks.flatten.length ≤ MAX_PREV_BUFFERING →
      ∃ c2, recvLoop c chunks = some c2
        ∧ (c2.state, c2.written) = wholeStream (pre ++ '\n' :: b ++ chunks.flatten) := by
  induction chunks with
  | nil =>
    intro c pre b hstate hw _ _ hno _ _
    refine ⟨c, rfl, ?_⟩
    rw [hstate, hw]
    simp only [List.flatten_nil, List.append_nil]
    exact (wholeStream_of_no_header hno).symm
  | cons data rest ih =>
    intro c pre b hstate hw hb hpre hno hne hlen
    have hd : 0 < data.length := List.length_pos.mpr (hne data (by simp))
    have hne2 : ∀ d ∈ rest, d ≠ [] := fun d hdm => hne d (by simp [hdm])
    simp only [List.flatten_cons, List.length_append, List.length_cons,
      MAX_PREV_BUFFERING] at hlen
    have hnob : ¬ HasHeaderLine ('\n' :: b) := fun hh =>
      hno (hasHeaderLine_of_sub hh ⟨pre, [], by simp⟩)
    have htext : pre ++ '\n' :: b ++ (data :: rest).flatten
        = pre ++ ('\n' :: b ++ data) ++ rest.flatten := by simp
    simp only [recvLoop, hd, if_true]
    rcases getPdfStart_cases data b with ⟨k, hk, hnl, _⟩ | ⟨k, hk, hno2, h⟩ | ⟨hk, h⟩
    · -- the header line is complete in this chunk
      obtain ⟨p, hstep⟩ := onData_found c data b hstate hw hb hnob
        (by norm_num [npos]; omega) hk hnl
      simp only [hstep]
      rw [recvLoop_body rest (Conn.mk .PARSING_BODY [] _ _) rfl hne2, htext,
        wholeStream_of_found pre ('\n' :: b ++ data) rest.flatten (b ++ data) rfl hpre hk hnl]
      exact ⟨_, rfl, rfl⟩
    · -- a header line has begun, its end is still to come
      have htake : ('\n' :: b ++ data).take MAX_PREV_BUFFERING = '\n' :: (b ++ data) := by
        apply List.take_of_length_le
        simp only [List.cons_append, List.length_cons, List.length_append, MAX_PREV_BUFFERING]
        omega
      rw [htake] at h
      simp only [onData_not_found c data b _ hstate hb h]
      have hfm : firstMarker (pre ++ '\n' :: (b ++ data)) = some (k + pre.length) := by
        rw [firstMarker_shift _ hpre]
        have : firstMarker ('\n' :: (b ++ data)) = some k := hk
        rw [this]
        rfl
      have hno3 : ¬ HasHeaderLine (pre ++ '\n' :: (b ++ data)) := by
        apply not_hasHeaderLine_of_open hfm
        rw [show k + pre.length + 1 = pre.length + (k + 1) by omega, List.drop_append]
        exact hno2
      obtain ⟨c2, hrun, hres⟩ := ih
        (Conn.mk c.state ('\n' :: (b ++ data)) c.written (c.scanLog ++ [npos]))
        pre (b ++ data) hstate hw rfl hpre hno3 hne2
        (by simp only [List.length_cons, List.length_append, MAX_PREV_BUFFERING]; omega)
      refine ⟨c2, hrun, ?_⟩
      rw [hres, htext]
      simp
    · -- no header line has begun
      obtain ⟨front, last, hsplit, hlast, hll⟩ := lastLine_shape (b ++ data)
      have hll2 : lastLine ('\n' :: b ++ data) = '\n' :: last := hll
      have hlenf := congrArg List.length hsplit
      simp only [List.length_cons, List.length_append] at hlenf
      have htake : ('\n' :: last).take MAX_PREV_BUFFERING = '\n' :: last := by
        apply List.take_of_length_le
        simp only [List.length_cons, MAX_PREV_BUFFERING]
        omega
      rw [hll2, htake] at h
      simp only [onData_not_found c data b _ hstate hb h]
      have hfm : firstMarker (pre ++ '\n' :: (b ++ data)) = none := by
        rw [firstMarker_shift _ hpre]
        have : firstMarker ('\n' :: (b ++ data)) = none := hk
        rw [this]
        rfl
      have hwhole : pre ++ '\n' :: (b ++ data) = (pre ++ front) ++ '\n' :: last := by
        rw [hsplit]; simp
      have hpre2 : ¬ marker <:+: pre ++ front := by
        intro hc
        apply (firstMarker_none_iff _).mp hfm
        rw [hwhole]
        exact hc.trans ⟨[], '\n' :: last, by simp⟩
      have hno3 : ¬ HasHeaderLine ((pre ++ front) ++ '\n' :: last) := by
        rw [← hwhole]
        exact not_hasHeaderLine_of_none hfm
      obtain ⟨c2, hrun, hres⟩ := ih
        (Conn.mk c.state ('\n' :: last) c.written (c.scanLog ++ [npos]))
        (pre ++ front) last hstate hw rfl hpre2 hno3 hne2
        (by simp only [List.length_cons, MAX_PREV_BUFFERING]; omega)
      refine ⟨c2, hrun, ?_⟩
      rw [hres, htext]
      congr 1
      have : pre ++ ('\n' :: b ++ data) = pre ++ '\n' :: (b ++ data) := rfl
      rw [this, hwhole]

/-- C10. Chunking invariance below the retention cap: a stream of at most 1023
bytes, split in any way into non-empty chunks, leaves the handler loop in the
same state and with the same payload bytes written as the stream delivered as
one chunk. -/
theorem chunking_invariance_below_cap (chunks : List (List Char))
    (hne : ∀ d ∈ chunks, d ≠ []) (hlen : chunks.flatten.length ≤ 1023) :
    ∃ c1 c2, recvLoop Conn.initial chunks = some c1
      ∧ recvLoop Conn.initial [chunks.flatten] = some c2
      ∧ c1.state = c2.state ∧ c1.written = c2.written := by
  have hno : ¬ HasHeaderLine ([] ++ '\n' :: []) := not_hasHeaderLine_sentinel
  have hpre : ¬ marker <:+: ([] : List Char) := by decide
  obtain ⟨c1, hrun1, hres1⟩ := recvLoop_eq_wholeStream chunks Conn.initial [] [] rfl rfl rfl
    hpre hno hne (by simp only [List.length_singleton, MAX_PREV_BUFFERING]; omega)
  by_cases hempty : chunks.flatten = []
  · -- an empty stream: no chunk at all, and the single `recv` returns 0
    have hnil : chunks = [] := by
      cases chunks with
      | nil => rfl
      | cons d rest =>
        have : d = [] := by
          have := congrArg List.length hempty
          simp only [List.flatten_cons, List.length_append, List.length_nil] at this
          exact List.length_eq_zero.mp (by omega)
        exact absurd this (hne d (by simp))
    subst hnil
    exact ⟨Conn.initial, Conn.initial, rfl, rfl, rfl, rfl⟩
  · obtain ⟨c2, hrun2, hres2⟩ := recvLoop_eq_wholeStream [chunks.flatten] Conn.initial [] []
      rfl rfl rfl hpre hno (by simpa using hempty)
      (by simp only [List.length_singleton, MAX_PREV_BUFFERING, List.flatten_cons,
        List.flatten_nil, List.append_nil]; omega)
    have hsame : ([chunks.flatten] : List (List Char)).flatten = chunks.flatten := by simp
    rw [hsame, ← hres1] at hres2
    simp only [Prod.mk.injEq] at hres2
    exact ⟨c1, c2, hrun1, hrun2, hres2.1.symm, hres2.2.symm⟩

set_option maxRecDepth 4000 in
/-- C10 on the job of the specification, split inside the marker. -/
theorem chunking_invariance_below_cap_witness :
    ∃ c1 c2, recvLoop Conn.initial ["JOB START\n%PD".toList, "F-1.4\nBODYBYTES".toList] = some c1
      ∧ recvLoop Conn.initial
          [["JOB START\n%PD".toList, "F-1.4\nBODYBYTES".toList].flatten] = some c2
      ∧ c1.state = c2.state ∧ c1.written = c2.written :=
  chunking_invariance_below_cap ["JOB START\n%PD".toList, "F-1.4\nBODYBYTES".toList]
    (by decide) (by decide)

/-! ## Streams without a marker -/

/-- Cutting a text off at `n` before appending does not change the first `n`
characters of the result. -/
theorem take_take_append (n : Nat) (text more : List Char) :
    (text.take n ++ more).take n = (text ++ more).take n := by
  by_cases h : text.length ≤ n
  · rw [List.take_of_length_le h]
  · have hn : n ≤ text.length := by omega
    rw [List.take_append_of_le_length (by simp [hn]), List.take_append_of_le_length hn,
      List.take_take, Nat.min_self]

/-- A marker at the front of the cut-off line is a marker at the front of the
line. -/
theorem marker_front_of_take {text more : List Char}
    (h : marker <+: text.take MAX_PREV_BUFFERING ++ more) : marker <+: text ++ more := by
  by_cases hl : text.length ≤ MAX_PREV_BUFFERING
  · rwa [List.take_of_length_le hl] at h
  · have hlen : marker.length ≤ (text.take MAX_PREV_BUFFERING).length := by
      simp only [marker_length, List.length_take, MAX_PREV_BUFFERING] at hl ⊢
      omega
    have h1 : marker <+: text.take MAX_PREV_BUFFERING :=
      List.prefix_of_prefix_length_le h (List.prefix_append _ _) hlen
    exact (h1.trans ( List.take_prefix _ _)).trans (List.prefix_append _ _)

/-- A stream that holds no marker never leaves `PARSING_HEADER`: every call of
`getPdfStart` returns `npos` and nothing is written. The carry buffer is the
current line, cut off at `MAX_PREV_BUFFERING`. -/
theorem recvLoop_no_marker (chunks : List (List Char)) :
    ∀ (c : Conn) (pre last : List Char), c.state = .PARSING_HEADER →
      c.chunkBorder = ('\n' :: last).take MAX_PREV_BUFFERING → '\n' ∉ last →
      ¬ marker <:+: pre ++ '\n' :: last ++ chunks.flatten →
      ∃ c2 n, recvLoop c chunks = some c2 ∧ c2.state = .PARSING_HEADER
        ∧ c2.written = c.written ∧ c2.scanLog = c.scanLog ++ List.replicate n npos
        ∧ ((∀ d ∈ chunks, d ≠ []) → n = chunks.length) := by
  induction chunks with
  | nil =>
    intro c pre last hstate _ _ _
    exact ⟨c, 0, rfl, hstate, rfl, by simp, fun _ => rfl⟩
  | cons data rest ih =>
    intro c pre last hstate hb hlast hnone
    by_cases hd : 0 < data.length
    · have hb2 : c.chunkBorder = '\n' :: last.take 1023 := by rw [hb]; rfl
      -- the joined text holds no marker
      have hsub : ∀ part : List Char, part <:+: '\n' :: last ++ data → ¬ marker <:+: part := by
        intro part hp hm
        apply hnone
        refine (hm.trans hp).trans ⟨pre, rest.flatten, ?_⟩
        simp
      have hfront : ¬ marker <+: '\n' :: last.take 1023 ++ data := by
        intro hm
        have : marker <+: ('\n' :: last).take MAX_PREV_BUFFERING ++ data := hm
        exact hsub _ (List.infix_refl _) (marker_front_of_take this).isInfix
      have hdata : firstMarker data = none :=
        (firstMarker_none_iff data).mpr (hsub data ⟨'\n' :: last, [], by simp⟩)
      have hltake : '\n' ∉ last.take 1023 := fun hm => hlast (List.mem_of_mem_take hm)
      have hfm : firstMarker ('\n' :: last.take 1023 ++ data) = none := by
        have : '\n' :: last.take 1023 ++ data = '\n' :: (last.take 1023 ++ data) := rfl
        rw [this, firstMarker_cons, if_neg (by rwa [this] at hfront),
          firstMarker_append_of_not_mem _ hltake, hdata]
        rfl
      rcases getPdfStart_cases data (last.take 1023) with
        ⟨k, hk, _, _⟩ | ⟨k, hk, _, _⟩ | ⟨_, h⟩
      · rw [hfm] at hk; cases hk
      · rw [hfm] at hk; cases hk
      · simp only [recvLoop, hd, if_true, onData_not_found c data _ _ hstate hb2 h]
        -- the new carry buffer is again the current line, cut off
        have hnext : ∃ pre2 last2, '\n' ∉ last2
            ∧ (lastLine ('\n' :: last.take 1023 ++ data)).take MAX_PREV_BUFFERING
                = ('\n' :: last2).take MAX_PREV_BUFFERING
            ∧ pre2 ++ '\n' :: last2 ++ rest.flatten
                = pre ++ '\n' :: last ++ (data :: rest).flatten := by
          by_cases hnl : '\n' ∈ data
          · obtain ⟨front, last2, hsplit, hlast2⟩ := split_at_last hnl
            refine ⟨pre ++ '\n' :: last ++ front, last2, hlast2, ?_, ?_⟩
            · have : '\n' :: last.take 1023 ++ data
                  = ('\n' :: last.take 1023 ++ front) ++ '\n' :: last2 := by
                rw [hsplit]; simp
              rw [this, lastLine_append, lastLine_of_not_mem _ hlast2]
            · rw [hsplit]; simp
          · refine ⟨pre, last ++ data, ?_, ?_, ?_⟩
            · intro hm
              rcases List.mem_append.mp hm with h1 | h1
              · exact hlast h1
              · exact hnl h1
            · have hnot : '\n' ∉ last.take 1023 ++ data := by
                intro hm
                rcases List.mem_append.mp hm with h1 | h1
                · exact hltake h1
                · exact hnl h1
              have h1 : '\n' :: last.take 1023 ++ data = '\n' :: (last.take 1023 ++ data) := rfl
              rw [h1, lastLine_of_not_mem _ hnot]
              exact take_take_append MAX_PREV_BUFFERING ('\n' :: last) data
            · simp
        obtain ⟨pre2, last2, hlast2, hcarry, hwhole⟩ := hnext
        obtain ⟨c2, n, hrun, hs, hw, hlog, hcount⟩ := ih
          (Conn.mk c.state ((lastLine ('\n' :: last.take 1023 ++ data)).take MAX_PREV_BUFFERING)
            c.written (c.scanLog ++ [npos]))
          pre2 last2 hstate hcarry hlast2 (by rw [hwhole]; exact hnone)
        refine ⟨c2, n + 1, hrun, hs, hw, ?_, ?_⟩
        · rw [hlog, List.replicate_succ]
          simp
        · intro hne
          rw [hcount (fun d hdm => hne d (by simp [hdm]))]
          simp
    · refine ⟨c, 0, by simp [recvLoop, hd], hstate, rfl, by simp, ?_⟩
      intro hne
      exact absurd (List.length_pos.mpr (hne data (by simp))) hd

/-! ## The metadata record and the commit -/

theorem wrapInt64_of_range {x : Int} (hlo : -(2 ^ 63) ≤ x) (hhi : x < 2 ^ 63) :
    wrapInt64 x = x := by
  unfold wrapInt64
  norm_num at hlo hhi ⊢
  omega

set_option maxRecDepth 8000 in
theorem findSub_tsPattern : findSub metadataTemplate tsPattern = some 45 := by decide

set_option maxRecDepth 8000 in
/-- The text of the metadata file: the template with the clock value in place
of the pattern. `writeMetaData` never throws in `replace`. -/
theorem metadataText_eq (now : Int) :
    metadataText now
      = some ("\x7b\n    \"deleted\": false,\n    \"lastModified\": \"".toList
          ++ toStdString (timestampMs now)
          ++ ("\",\n    \"metadatamodified\": true,\n    \"modified\": true,\n" ++
              "    \"parent\": \"\",\n    \"pinned\": false,\n    \"synced\": false,\n" ++
              "    \"type\": \"DocumentType\",\n    \"version\": 0,\n" ++
              "    \"visibleName\": \"PDF import\"\n\x7d").toList) := by
  unfold metadataText
  rw [findSub_tsPattern]
  have hlen : 45 ≤ metadataTemplate.length := by decide
  simp only [replaceAt, hlen, if_true]
  have h1 : metadataTemplate.take 45
      = "\x7b\n    \"deleted\": false,\n    \"lastModified\": \"".toList := by decide
  have h2 : metadataTemplate.drop (45 + tsPattern.length)
      = ("\",\n    \"metadatamodified\": true,\n    \"modified\": true,\n" ++
          "    \"parent\": \"\",\n    \"pinned\": false,\n    \"synced\": false,\n" ++
          "    \"type\": \"DocumentType\",\n    \"version\": 0,\n" ++
          "    \"visibleName\": \"PDF import\"\n\x7d").toList := by decide
  rw [h1, h2]

set_option maxRecDepth 8000 in
/-- C8. Metadata record: for a clock reading `t` whose milliseconds fit the
signed 64-bit `time_t`, the text for `<id>.metadata` is the fixed JSON object
with the keys deleted, lastModified, metadatamodified, modified, parent,
pinned, synced, type, version and visibleName, in which lastModified is the
decimal string of `t * 1000` and nothing else depends on `t`; this is the text
`writeMetaData` stores; and later clock readings never give a smaller
lastModified. -/
theorem metadata_record (t : Int) (hlo : -(2 ^ 63) ≤ t * 1000) (hhi : t * 1000 < 2 ^ 63) :
    (∃ text, metadataText t = some text
      ∧ text = "\x7b\n    \"deleted\": false,\n    \"lastModified\": \"".toList
          ++ (toString (t * 1000)).toList
          ++ ("\",\n    \"metadatamodified\": true,\n    \"modified\": true,\n" ++
              "    \"parent\": \"\",\n    \"pinned\": false,\n    \"synced\": false,\n" ++
              "    \"type\": \"DocumentType\",\n    \"version\": 0,\n" ++
              "    \"visibleName\": \"PDF import\"\n\x7d").toList
      ∧ ∀ (f : ReceivedFile) (env : Env) (fs : FS), env.now = t → env.metaOpens = true →
          text.length ≤ env.metaStored →
          f.writeMetaData env fs = some (fs.store f.metadataPath text))
    ∧ timestampMs t = t * 1000
    ∧ (∀ t2 : Int, t ≤ t2 → t2 * 1000 < 2 ^ 63 → timestampMs t ≤ timestampMs t2) := by
  have hts : timestampMs t = t * 1000 := wrapInt64_of_range hlo hhi
  refine ⟨⟨_, metadataText_eq t, ?_, ?_⟩, hts, ?_⟩
  · rw [hts]
    rfl
  · intro f env fs hnow hopen hstored
    simp only [ReceivedFile.writeMetaData, hnow, metadataText_eq t, hopen, if_true]
    rw [List.take_of_length_le hstored]
  · intro t2 hle hhi2
    have hts2 : timestampMs t2 = t2 * 1000 := wrapInt64_of_range (by omega) hhi2
    rw [hts, hts2]
    omega

set_option maxRecDepth 8000 in
/-- C8 at the clock reading 1700000000: lastModified is `1700000000000`. -/
theorem metadata_record_witness :
    metadataText 1700000000
      = some ("\x7b\n    \"deleted\": false,\n    \"lastModified\": \"1700000000000\",\n" ++
          "    \"metadatamodified\": true,\n    \"modified\": true,\n" ++
          "    \"parent\": \"\",\n    \"pinned\": false,\n    \"synced\": false,\n" ++
          "    \"type\": \"DocumentType\",\n    \"version\": 0,\n" ++
          "    \"visibleName\": \"PDF import\"\n\x7d").toList
    ∧ timestampMs 1700000000 = 1700000000000 := by
  obtain ⟨⟨text, h1, h2, _⟩, h3, _⟩ := metadata_record 1700000000 (by decide) (by decide)
  refine ⟨?_, h3⟩
  rw [h1, h2]
  decide

theorem pdfPath_ne_metadataPath (f : ReceivedFile) : f.pdfPath ≠ f.metadataPath := by
  intro h
  have h2 := List.append_cancel_left h
  revert h2
  decide

theorem FS.unlink_store_store (fs : FS) (path a b : List Char) :
    ((fs.store path a).store path b).unlink path = fs.unlink path := by
  funext p
  simp only [FS.unlink, FS.store]
  by_cases hp : p = path <;> simp [hp]

theorem create_of_opens (env : Env) (dir : List Char) (fs : FS) (h : env.pdfOpens = true) :
    ∃ file, ReceivedFile.create env dir fs = some (file, fs.store file.pdfPath [])
      ∧ file.isOpen = true ∧ file.fileUuid = env.uuid := by
  simp only [ReceivedFile.create, h, if_true]
  exact ⟨_, rfl, rfl, rfl⟩

/-- C4. No marker implies nothing kept: when `"\n" + stream` holds no
occurrence of `"\n%PDF-"`, every call of `getPdfStart` returns `npos`, nothing
is passed to the payload file, the loop ends in `PARSING_HEADER`, the handler
discards without `close()`, and afterwards the directory holds no `<id>.pdf`
and, as the metadata file is left untouched, no `<id>.metadata` where there
was none before. -/
theorem no_marker_nothing_kept (env : Env) (chunks : List (List Char)) (dir : List Char)
    (fs : FS) (hopen : env.pdfOpens = true)
    (hnone : ¬ marker <:+: '\n' :: chunks.flatten) :
    ∃ (c : Conn) (file : ReceivedFile) (fs1 : FS),
      ReceivedFile.create env dir fs = some (file, fs1)
      ∧ recvLoop Conn.initial chunks = some c
      ∧ c.state = .PARSING_HEADER ∧ c.written = []
      ∧ (∀ v ∈ c.scanLog, v = npos)
      ∧ ((∀ d ∈ chunks, d ≠ []) → c.scanLog.length = chunks.length)
      ∧ handlePdfFromSock env chunks dir fs = (.discarded, fs.unlink file.pdfPath)
      ∧ (handlePdfFromSock env chunks dir fs).2 file.pdfPath = none
      ∧ (handlePdfFromSock env chunks dir fs).2 file.metadataPath = fs file.metadataPath
      ∧ (fs file.metadataPath = none →
          (handlePdfFromSock env chunks dir fs).2 file.metadataPath = none) := by
  obtain ⟨file, hcreate, hisopen, _⟩ := create_of_opens env dir fs hopen
  obtain ⟨c, n, hrun, hstate, hw, hlog, hcount⟩ := recvLoop_no_marker chunks Conn.initial [] []
    rfl rfl (by simp) (by simpa using hnone)
  have hlog2 : c.scanLog = List.replicate n npos := by simpa [Conn.initial] using hlog
  have hhandle : handlePdfFromSock env chunks dir fs = (.discarded, fs.unlink file.pdfPath) := by
    unfold handlePdfFromSock
    rw [hcreate]
    simp only [hrun]
    rw [if_neg (by rw [hstate]; decide)]
    unfold ReceivedFile.release
    rw [if_pos hisopen, FS.unlink_store_store]
  have hmeta : (fs.unlink file.pdfPath) file.metadataPath = fs file.metadataPath := by
    simp only [FS.unlink]
    rw [if_neg (fun h => pdfPath_ne_metadataPath file h.symm)]
  refine ⟨c, file, _, hcreate, hrun, hstate, hw, ?_, ?_, hhandle, ?_, ?_, ?_⟩
  · intro v hv
    rw [hlog2] at hv
    exact (List.mem_replicate.mp hv).2
  · intro hne
    rw [hlog2, List.length_replicate, hcount hne]
  · rw [hhandle]
    simp [FS.unlink]
  · rw [hhandle]
    exact hmeta
  · intro hfresh
    rw [hhandle]
    exact hmeta.trans hfresh

set_option maxRecDepth 8000 in
/-- C4 on the stream `"no marker here at all"`: discarded, and the directory
stays empty. -/
theorem no_marker_nothing_kept_witness :
    ¬ marker <:+: '\n' :: ["no marker here at all".toList].flatten
    ∧ (handlePdfFromSock goodEnv ["no marker here at all".toList] "/d".toList emptyFS).1
        = .discarded
    ∧ (handlePdfFromSock goodEnv ["no marker here at all".toList] "/d".toList emptyFS).2
        "/d/id.pdf".toList = none
    ∧ (handlePdfFromSock goodEnv ["no marker here at all".toList] "/d".toList emptyFS).2
        "/d/id.metadata".toList = none := by
  have hnone : ¬ marker <:+: '\n' :: ["no marker here at all".toList].flatten :=
    (firstMarker_none_iff _).mp (by decide)
  obtain ⟨c, file, fs1, hcreate, _, _, _, _, _, hh, hpdf, _, hmeta⟩ :=
    no_marker_nothing_kept goodEnv ["no marker here at all".toList] "/d".toList emptyFS rfl hnone
  have hfile : file = { dataDir := "/d/".toList, fileUuid := "id".toList, isOpen := true } := by
    have h2 : ReceivedFile.create goodEnv "/d".toList emptyFS
        = some ({ dataDir := "/d/".toList, fileUuid := "id".toList, isOpen := true },
            emptyFS.store "/d/id.pdf".toList []) := by
      rfl
    rw [h2] at hcreate
    simp only [Option.some.injEq, Prod.mk.injEq] at hcreate
    exact hcreate.1.symm
  subst hfile
  exact ⟨hnone, by rw [hh], hpdf, hmeta rfl⟩

/-- What `close()` does on a connection that reached `PARSING_BODY`. If the
metadata file cannot be opened, `close()` throws while the payload file is
still open, the handler ends with an error and the released `ReceivedFile` has
removed `<id>.pdf`: on this path the commit is all-or-nothing. If the metadata
file can be opened, `close()` returns whatever the write stored, since the
stream is not checked after `metadataFile << metadata`. -/
theorem close_after_body (env : Env) (chunks : List (List Char)) (dir : List Char)
    (fs : FS) (conn : Conn) (hopen : env.pdfOpens = true)
    (hrun : recvLoop Conn.initial chunks = some conn) (hbody : conn.state = .PARSING_BODY) :
    ∃ (file : ReceivedFile) (fs1 : FS) (text : List Char),
      ReceivedFile.create env dir fs = some (file, fs1) ∧ file.isOpen = true
      ∧ metadataText env.now = some text
      ∧ (env.metaOpens = false →
          file.close env (fs1.store file.pdfPath conn.written) = none
          ∧ handlePdfFromSock env chunks dir fs = (.error, fs.unlink file.pdfPath)
          ∧ (handlePdfFromSock env chunks dir fs).2 file.pdfPath = none)
      ∧ (env.metaOpens = true →
          (∃ closed fs3, file.close env (fs1.store file.pdfPath conn.written)
              = some (closed, fs3) ∧ closed.isOpen = false)
          ∧ (handlePdfFromSock env chunks dir fs).1 = .imported
          ∧ (handlePdfFromSock env chunks dir fs).2 file.pdfPath = some conn.written
          ∧ (handlePdfFromSock env chunks dir fs).2 file.metadataPath
              = some (text.take env.metaStored)) := by
  obtain ⟨file, hcreate, hisopen, _⟩ := create_of_opens env dir fs hopen
  refine ⟨file, _, _, hcreate, hisopen, metadataText_eq env.now, ?_, ?_⟩
  · intro hmeta
    have hclose : file.close env ((fs.store file.pdfPath []).store file.pdfPath conn.written)
        = none := by
      unfold ReceivedFile.close ReceivedFile.writeMetaData
      rw [metadataText_eq]
      simp only [hmeta]
      rfl
    have hh : handlePdfFromSock env chunks dir fs = (.error, fs.unlink file.pdfPath) := by
      unfold handlePdfFromSock
      rw [hcreate]
      simp only [hrun]
      rw [if_pos hbody, hclose]
      simp only []
      unfold ReceivedFile.release
      rw [if_pos hisopen, FS.unlink_store_store]
    refine ⟨hclose, hh, ?_⟩
    rw [hh]
    simp [FS.unlink]
  · intro hmeta
    have hclose : file.close env ((fs.store file.pdfPath []).store file.pdfPath conn.written)
        = some ({ file with isOpen := false },
            ((fs.store file.pdfPath []).store file.pdfPath conn.written).store
              file.metadataPath
              (List.take env.metaStored
                ("\x7b\n    \"deleted\": false,\n    \"lastModified\": \"".toList
                  ++ toStdString (timestampMs env.now)
                  ++ ("\",\n    \"metadatamodified\": true,\n    \"modified\": true,\n" ++
                      "    \"parent\": \"\",\n    \"pinned\": false,\n    \"synced\": false,\n" ++
                      "    \"type\": \"DocumentType\",\n    \"version\": 0,\n" ++
                      "    \"visibleName\": \"PDF import\"\n\x7d").toList))) := by
      unfold ReceivedFile.close ReceivedFile.writeMetaData
      rw [metadataText_eq]
      simp only [hmeta]
      rfl
    have hh : handlePdfFromSock env chunks dir fs
        = (.imported,
            ((fs.store file.pdfPath []).store file.pdfPath conn.written).store
              file.metadataPath
              (List.take env.metaStored
                ("\x7b\n    \"deleted\": false,\n    \"lastModified\": \"".toList
                  ++ toStdString (timestampMs env.now)
                  ++ ("\",\n    \"metadatamodified\": true,\n    \"modified\": true,\n" ++
                      "    \"parent\": \"\",\n    \"pinned\": false,\n    \"synced\": false,\n" ++
                      "    \"type\": \"DocumentType\",\n    \"version\": 0,\n" ++
                      "    \"visibleName\": \"PDF import\"\n\x7d").toList))) := by
      unfold handlePdfFromSock
      rw [hcreate]
      simp only [hrun]
      rw [if_pos hbody, hclose]
      rfl
    refine ⟨⟨_, _, hclose, rfl⟩, by rw [hh], ?_, ?_⟩
    · rw [hh]
      simp only [FS.store]
      rw [if_neg (pdfPath_ne_metadataPath file)]
      simp only [if_true]
    · rw [hh]
      simp only [FS.store, if_true]

set_option maxRecDepth 8000 in
/-- Where the metadata file cannot be opened, the job `"\n%PDF-\nxy"` ends
with an error and leaves no `/d/id.pdf`. -/
theorem close_after_body_open_failure :
    (handlePdfFromSock noMetaEnv ["\n%PDF-\nxy".toList] "/d".toList emptyFS).1 = .error
    ∧ (handlePdfFromSock noMetaEnv ["\n%PDF-\nxy".toList] "/d".toList emptyFS).2
        "/d/id.pdf".toList = none := by
  obtain ⟨file, fs1, text, hcreate, _, _, hfail, _⟩ :=
    close_after_body noMetaEnv ["\n%PDF-\nxy".toList] "/d".toList emptyFS
      { state := .PARSING_BODY, chunkBorder := [], written := "xy".toList, scanLog := [7] }
      rfl (by decide) rfl
  have h2 : ReceivedFile.create noMetaEnv "/d".toList emptyFS
      = some ({ dataDir := "/d/".toList, fileUuid := "id".toList, isOpen := true },
          emptyFS.store "/d/id.pdf".toList []) := rfl
  rw [h2] at hcreate
  simp only [Option.some.injEq, Prod.mk.injEq] at hcreate
  obtain ⟨hfile, _⟩ := hcreate
  subst hfile
  obtain ⟨_, hh, hpdf⟩ := hfail rfl
  exact ⟨by rw [hh], hpdf⟩

set_option maxRecDepth 8000 in
/-- C5 at `fullDiskEnv`. The metadata file opens and the write to it stores
nothing, so writing the metadata has failed; all-or-nothing commit asks for
`close()` to fail and `/d/id.pdf` to be removed. The code does neither:
`close()` returns, the handler reports the import and `/d/id.pdf` is kept next
to an empty `/d/id.metadata`, against the comments in `close()` ("it still can
fail and throw an exception", "metadata successfuly written"): the state of
`metadataFile` is never looked at after the write. -/
theorem short_metadata_write_is_committed :
    metadataText fullDiskEnv.now ≠ some []
    ∧ (ReceivedFile.close { dataDir := "/d/".toList, fileUuid := "id".toList, isOpen := true }
        fullDiskEnv (emptyFS.store "/d/id.pdf".toList "xy".toList)).isSome = true
    ∧ (handlePdfFromSock fullDiskEnv ["\n%PDF-\nxy".toList] "/d".toList emptyFS).1 = .imported
    ∧ (handlePdfFromSock fullDiskEnv ["\n%PDF-\nxy".toList] "/d".toList emptyFS).2
        "/d/id.metadata".toList = some []
    ∧ (handlePdfFromSock fullDiskEnv ["\n%PDF-\nxy".toList] "/d".toList emptyFS).2
        "/d/id.pdf".toList = some "xy".toList := by
  refine ⟨by decide, by decide, by decide, by decide, by decide⟩

/-! ## The header line that is cut off -/

set_option maxRecDepth 100000 in
/-- C2 at `longJob`. The same 1034 bytes, delivered in chunks that `recv` can
return, give different results: `longJob` is discarded, `longJobFilled` writes
`"BODY"`, as does the loop on the whole stream as one chunk. In `longJob` the
header line begins in the second chunk behind a carry buffer of 1021 bytes,
and `lineBuf.substr(0, MAX_PREV_BUFFERING)` keeps `"\n%P"` of it. -/
theorem chunking_changes_result :
    longJob.flatten = longJobFilled.flatten
    ∧ (∀ d ∈ longJob, d ≠ [] ∧ d.length ≤ 1024)
    ∧ (∀ d ∈ longJobFilled, d ≠ [] ∧ d.length ≤ 1024)
    ∧ (recvLoop Conn.initial longJob).map (fun c => (c.state, c.written))
        = some (.PARSING_HEADER, [])
    ∧ (recvLoop Conn.initial longJobFilled).map (fun c => (c.state, c.written))
        = some (.PARSING_BODY, "BODY".toList)
    ∧ (recvLoop Conn.initial [longJob.flatten]).map (fun c => (c.state, c.written))
        = some (.PARSING_BODY, "BODY".toList) := by
  refine ⟨by decide!, by decide!, by decide!, by decide!, by decide!, by decide!⟩

set_option maxRecDepth 100000 in
/-- C3 at `longJob`. The stream holds the terminated header line
`"\n%PDF-1.4\n"` followed by `"BODY"`, and yet the loop ends in
`PARSING_HEADER` with every call of `getPdfStart` returning `npos`, the
handler discards, and no `.pdf` and no `.metadata` is left. -/
theorem header_line_lost :
    '\n' :: longJob.flatten
        = ('\n' :: List.replicate 1020 'a') ++ marker ++ "1.4".toList ++ '\n' :: "BODY".toList
    ∧ HasHeaderLine ('\n' :: longJob.flatten)
    ∧ (recvLoop Conn.initial longJob).map (fun c => (c.state, c.written, c.scanLog))
        = some (.PARSING_HEADER, [], [npos, npos, npos])
    ∧ (handlePdfFromSock goodEnv longJob "/d".toList emptyFS).1 = .discarded
    ∧ (handlePdfFromSock goodEnv longJob "/d".toList emptyFS).2 "/d/id.pdf".toList = none
    ∧ (handlePdfFromSock goodEnv longJob "/d".toList emptyFS).2 "/d/id.metadata".toList
        = none := by
  have h : '\n' :: longJob.flatten
      = ('\n' :: List.replicate 1020 'a') ++ marker ++ "1.4".toList ++ '\n' :: "BODY".toList := by
    decide!
  exact ⟨h, ⟨_, _, _, h⟩, by decide!, by decide!, by decide!, by decide!⟩

set_option maxRecDepth 100000 in
/-- The second call of `getPdfStart` on `longJob`: the header line begins at
index 1021 of the joined text, no line feed follows yet, and the carry buffer
kept for the next call ends with `"\n%P"`. -/
theorem longJob_second_call :
    getPdfStart "\n%PDF-1".toList ('\n' :: List.replicate 1020 'a')
      = .returned npos ('\n' :: List.replicate 1020 'a' ++ "\n%P".toList) := by
  decide!

/-! ## Totality of the loop and the header line below the cap -/

theorem find_lt_length {s : List Char} {c : Char} {start i : Nat}
    (h : find s c start = some i) : start ≤ i ∧ i < s.length := by
  unfold find at h
  by_cases hmem : c ∈ s.drop start
  · rw [if_pos hmem] at h
    have hidx := List.indexOf_lt_length.mpr hmem
    rw [List.length_drop] at hidx
    cases h
    omega
  · rw [if_neg hmem] at h
    cases h

/-- With a line begin inside the text and fuel for the rest of it, the loop
of `getPdfStart` does not run out of fuel. -/
theorem scanLoop_ne_fuelOut (lineBuf chunkBorder : List Char) :
    ∀ (fuel pos : Nat), pos ≤ lineBuf.length → lineBuf.length + 1 ≤ pos + fuel →
      scanLoop lineBuf chunkBorder fuel pos ≠ .fuelOut := by
  intro fuel
  induction fuel with
  | zero => intro pos h1 h2; omega
  | succ f ih =>
    intro pos hpos hfuel
    have hnext : ∀ nextPos, find lineBuf '\n' (pos + 1) = some nextPos →
        nextPos ≤ lineBuf.length ∧ lineBuf.length + 1 ≤ nextPos + f := by
      intro nextPos hfind
      have := find_lt_length hfind
      omega
    simp only [scanLoop, substr, hpos, if_true, Nat.zero_le]
    by_cases hm : (lineBuf.drop pos).take 6 = marker
    · simp only [hm, if_true]
      cases hfind : find lineBuf '\n' (pos + 1) with
      | none => simp
      | some nextNewLine => simp
    · simp only [hm, if_false]
      cases hfind : find lineBuf '\n' (pos + 1) with
      | none => simp
      | some nextPos =>
        obtain ⟨h1, h2⟩ := hnext nextPos hfind
        exact ih nextPos h1 h2

/-- The iteration bound of the model is never met: `getPdfStart` returns or
throws. -/
theorem getPdfStart_ne_fuelOut (chunk chunkBorder : List Char) :
    getPdfStart chunk chunkBorder ≠ .fuelOut := by
  unfold getPdfStart
  cases hfind : find (chunkBorder ++ chunk) '\n' 0 with
  | none => simp [hfind]
  | some pos =>
    simp only [hfind]
    apply scanLoop_ne_fuelOut
    · exact Nat.le_of_lt (find_lt_length hfind).2
    · omega

/-- The payload of a whole stream is what follows the line feed that ends the
first header line. -/
theorem wholeStream_of_split {text pre mid post : List Char}
    (hsplit : text = pre ++ marker ++ mid ++ '\n' :: post)
    (hmin : ∀ pre2 suf2, text = pre2 ++ marker ++ suf2 → pre.length ≤ pre2.length)
    (hmid : '\n' ∉ mid) : wholeStream text = (.PARSING_BODY, post) := by
  have hsplit2 : text = pre ++ marker ++ (mid ++ '\n' :: post) := by rw [hsplit]; simp
  have hk := firstMarker_of_minimal hsplit2 hmin
  have hnl : '\n' ∈ text.drop (pre.length + 1) := by
    apply mem_drop_of_split (pre ++ marker ++ mid) post hsplit
    simp [marker_length]
    omega
  obtain ⟨mid2, post2, h1, hmid2, hidx, hdrop⟩ := header_line_of_first hk hnl
  have htake : text.take pre.length = pre := by
    conv_lhs => rw [hsplit2]
    simp
  rw [htake] at h1
  have heq : mid ++ '\n' :: post = mid2 ++ '\n' :: post2 := by
    have h3 : pre ++ marker ++ (mid ++ '\n' :: post) = pre ++ marker ++ (mid2 ++ '\n' :: post2) := by
      rw [← hsplit2, h1]; simp
    exact List.append_cancel_left h3
  obtain ⟨_, hpost⟩ := split_unique hmid hmid2 heq
  unfold wholeStream
  simp only [hk, hnl, if_true, hidx, hdrop, hpost]

/-- Below the retention cap a terminated header line is found however the
stream is split: the loop ends in `PARSING_BODY` having written the bytes
behind the line feed that ends the first header line, and the handler
commits them. -/
theorem header_line_committed_below_cap (chunks : List (List Char)) (pre mid post : List Char)
    (hne : ∀ d ∈ chunks, d ≠ []) (hlen : chunks.flatten.length ≤ 1023)
    (hsplit : '\n' :: chunks.flatten = pre ++ marker ++ mid ++ '\n' :: post)
    (hmin : ∀ pre2 suf2, '\n' :: chunks.flatten = pre2 ++ marker ++ suf2 →
      pre.length ≤ pre2.length)
    (hmid : '\n' ∉ mid) :
    ∃ c, recvLoop Conn.initial chunks = some c ∧ c.state = .PARSING_BODY ∧ c.written = post := by
  obtain ⟨c, hrun, hres⟩ := recvLoop_eq_wholeStream chunks Conn.initial [] [] rfl rfl rfl
    (by decide) not_hasHeaderLine_sentinel hne
    (by simp only [List.length_singleton, MAX_PREV_BUFFERING]; omega)
  have hw := wholeStream_of_split hsplit hmin hmid
  have htext : ([] : List Char) ++ '\n' :: [] ++ chunks.flatten = '\n' :: chunks.flatten := rfl
  rw [htext, hw] at hres
  simp only [Prod.mk.injEq] at hres
  exact ⟨c, hrun, hres.1, hres.2⟩

end PrintServer
